import Mathlib

/-!
# UD3_UART: USB-CDC to UART bridge (`UD3_UART.cydsn/main.c`)

A shallow embedding of the two routines of `main.c`:

* `uart_baudrate` (lines 52-80): the clock-divider search, carried out by the C code in
  IEEE-754 single and double precision, followed by six peripheral calls;
* the body of the `for(;;)` loop of `main` (lines 125-230): boot-loader trigger, CDC
  initialisation, host→UART forwarding, UART→host forwarding with the zero-length-packet rule,
  and the line-coding change that calls `uart_baudrate`.

Floating-point values are modelled exactly: a finite value is the rational number it denotes and
every arithmetic operation rounds its exact result to nearest, ties to even, at the precision of
its C type (`float` is IEEE-754 binary32 with 24 significant bits, `double` is binary64 with 53,
and an expression is evaluated in the type of its operands, as on the Cortex-M3 of the PSoC 5LP).
-/

namespace UD3

/-! ## IEEE-754 arithmetic -/

/-- Round a rational to the nearest integer, ties to the even integer. -/
def rne (x : ℚ) : ℤ :=
  if x - ⌊x⌋ < 1 / 2 then ⌊x⌋
  else if 1 / 2 < x - ⌊x⌋ then ⌊x⌋ + 1
  else if ⌊x⌋ % 2 = 0 then ⌊x⌋ else ⌊x⌋ + 1

/-- Search upward from `k` for the first exponent with `n < 2 ^ (k + 1)`. -/
def log2Search : ℕ → ℕ → ℕ → ℕ
  | 0, _, k => k
  | f + 1, n, k => if n < 2 ^ (k + 1) then k else log2Search f n (k + 1)

/-- The position of the leading bit of `n`: `2 ^ ilog2 n ≤ n < 2 ^ (ilog2 n + 1)` for `n ≥ 1`. -/
def ilog2 (n : ℕ) : ℕ := log2Search n n 0

/-- The binary exponent `E` of a positive rational: `2 ^ E ≤ x < 2 ^ (E + 1)`. -/
def expo (x : ℚ) : ℤ :=
  if (2 : ℚ) ^ ((ilog2 x.num.natAbs : ℤ) - (ilog2 x.den : ℤ)) ≤ x
  then (ilog2 x.num.natAbs : ℤ) - (ilog2 x.den : ℤ)
  else (ilog2 x.num.natAbs : ℤ) - (ilog2 x.den : ℤ) - 1

/-- Round a positive rational to `p` significant bits (nearest, ties to even): with
`2 ^ E ≤ x < 2 ^ (E + 1)` the result is the nearest multiple of `2 ^ (E - p + 1)`. -/
def rnd (p : ℕ) (x : ℚ) : ℚ :=
  rne (x / 2 ^ (expo x - ((p : ℤ) - 1))) * 2 ^ (expo x - ((p : ℤ) - 1))

/-- Round-to-nearest-even at precision `p`, symmetric in the sign. The exponent range is not
bounded: every value `uart_baudrate` forms from 32-bit integers lies in the normal range of
both `float` and `double`. -/
def roundNE (p : ℕ) (x : ℚ) : ℚ :=
  if x = 0 then 0 else if 0 < x then rnd p x else -rnd p (-x)

/-- An IEEE-754 datum: a finite value, a signed infinity, or a NaN. Zero is always `+0`
(no operation of `uart_baudrate` produces `-0` as a divisor). -/
inductive FP where
  | fin (q : ℚ)
  | inf (neg : Bool)
  | nan
deriving DecidableEq

namespace FP

/-- Conversion of an unsigned integer to floating point at precision `p`. -/
def ofNat (p : ℕ) (n : ℕ) : FP := fin (roundNE p n)

/-- IEEE division at precision `p`. -/
def div (p : ℕ) : FP → FP → FP
  | nan, _ => nan
  | _, nan => nan
  | inf _, inf _ => nan
  | inf s, fin y => inf (if y < 0 then !s else s)
  | fin _, inf _ => fin 0
  | fin x, fin y =>
    if y = 0 then (if x = 0 then nan else inf (decide (x < 0)))
    else fin (roundNE p (x / y))

/-- IEEE subtraction at precision `p`. -/
def sub (p : ℕ) : FP → FP → FP
  | nan, _ => nan
  | _, nan => nan
  | inf s, inf t => if s = t then nan else inf s
  | inf s, fin _ => inf s
  | fin _, inf t => inf (!t)
  | fin x, fin y => fin (roundNE p (x - y))

/-- C `floor` (exact). -/
def floor : FP → FP
  | fin x => fin (⌊x⌋ : ℤ)
  | x => x

/-- C `ceil` (exact). -/
def ceil : FP → FP
  | fin x => fin (⌈x⌉ : ℤ)
  | x => x

/-- C `fabs` (exact). -/
def fabs : FP → FP
  | fin x => fin |x|
  | inf _ => inf false
  | nan => nan

/-- The C comparison `a < b`: false as soon as one operand is a NaN. -/
def lt : FP → FP → Bool
  | nan, _ => false
  | _, nan => false
  | fin x, fin y => decide (x < y)
  | fin _, inf t => !t
  | inf s, fin _ => s
  | inf s, inf t => s && !t

/-- Integral part of a finite value (truncation toward zero). -/
def trunc (q : ℚ) : ℤ := if 0 ≤ q then ⌊q⌋ else ⌈q⌉

end FP

/-! ## The target platform

C leaves three things `uart_baudrate` can run into without a defined result: a floating value
converted to an unsigned type that cannot hold its integral part, and an unsigned division by
zero. The value the target produces in each case is a parameter of the model. -/

/-- What the target yields where C defines no result. A target on which one of these operations
traps is not described by this record. -/
structure Target where
  /-- Conversion `double → uint32_t` of an operand outside the range of `uint32_t`. -/
  d2u32 : FP → ℕ
  /-- Conversion `double → uint16_t` of an operand outside the range of `uint16_t`. -/
  d2u16 : FP → ℕ
  /-- Quotient of the unsigned division of the given dividend by zero. -/
  udiv0 : ℕ → ℕ

/-- The run-time conversion `__aeabi_d2uiz` of the ARM EABI: NaN and negative operands give 0,
operands beyond the range saturate. -/
def d2uiz : FP → ℕ
  | FP.nan => 0
  | FP.inf true => 0
  | FP.inf false => 2 ^ 32 - 1
  | FP.fin q => if q < 0 then 0 else if q < 2 ^ 32 then ⌊q⌋.toNat else 2 ^ 32 - 1

/-- The PSoC 5LP (Cortex-M3, GCC): conversions go through `__aeabi_d2uiz`, a 16-bit destination
keeps the low half-word, and `UDIV` by zero gives 0. -/
def cortexM3 : Target where
  d2u32 := d2uiz
  d2u16 := fun x => d2uiz x % 2 ^ 16
  udiv0 := fun _ => 0

/-- Conversion of a floating value to an unsigned integer type of `w` bits: the integral part when
the type can hold it, otherwise whatever the target yields (`oor`), reduced to the type. -/
def toUnsigned (w : ℕ) (oor : FP → ℕ) (x : FP) : ℕ :=
  match x with
  | FP.fin q => if 0 ≤ FP.trunc q ∧ FP.trunc q < 2 ^ w then (FP.trunc q).toNat else oor x % 2 ^ w
  | _ => oor x % 2 ^ w

/-- Unsigned 32-bit division. -/
def udiv (T : Target) (a b : ℕ) : ℕ := if b = 0 then T.udiv0 a % 2 ^ 32 else a / b

/-! ## `uart_baudrate` (main.c lines 52-80) -/

/-- Calls into the UART, its clock and the auxiliary timer made by `uart_baudrate`. -/
inductive Op where
  | UART_2_Stop
  | Mantmr_WritePeriod (period : ℕ)
  | Mantmr_Stop
  | Mantmr_Start
  | UART_CLK_SetDividerValue (clkDivider : ℕ)
  | UART_2_Start
deriving DecidableEq, Repr

/-- Line 53: `float divider = (float)(BCLK__BUS_CLK__HZ/8)/(float)baudrate;`. The bus clock
`BCLK__BUS_CLK__HZ` comes from a generated header and is a parameter here (`bus`). -/
def divider (bus baudrate : ℕ) : FP :=
  FP.div 24 (FP.ofNat 24 (bus / 8)) (FP.ofNat 24 baudrate)

/-- Line 56: `uint32_t down_rate = (BCLK__BUS_CLK__HZ/8)/floor(divider);` (a `double` division
converted to `uint32_t`). -/
def down_rate (T : Target) (bus baudrate : ℕ) : ℕ :=
  toUnsigned 32 T.d2u32 (FP.div 53 (FP.ofNat 53 (bus / 8)) (FP.floor (divider bus baudrate)))

/-- Line 57: `uint32_t up_rate = (BCLK__BUS_CLK__HZ/8)/ceil(divider);`. -/
def up_rate (T : Target) (bus baudrate : ℕ) : ℕ :=
  toUnsigned 32 T.d2u32 (FP.div 53 (FP.ofNat 53 (bus / 8)) (FP.ceil (divider bus baudrate)))

/-- Line 59: `float down_rate_error = (down_rate/(float)baudrate)-1;`. -/
def down_rate_error (T : Target) (bus baudrate : ℕ) : FP :=
  FP.sub 24 (FP.div 24 (FP.ofNat 24 (down_rate T bus baudrate)) (FP.ofNat 24 baudrate))
    (FP.ofNat 24 1)

/-- Line 60: `float up_rate_error = (up_rate/(float)baudrate)-1;`. -/
def up_rate_error (T : Target) (bus baudrate : ℕ) : FP :=
  FP.sub 24 (FP.div 24 (FP.ofNat 24 (up_rate T bus baudrate)) (FP.ofNat 24 baudrate))
    (FP.ofNat 24 1)

/-- Line 63: the test `fabs(down_rate_error) < fabs(up_rate_error)`. -/
def down_selected (T : Target) (bus baudrate : ℕ) : Bool :=
  FP.lt (FP.fabs (down_rate_error T bus baudrate)) (FP.fabs (up_rate_error T bus baudrate))

/-- Lines 54 and 63-69: the value of `uint16_t divider_selected` after the selection. -/
def divider_selected (T : Target) (bus baudrate : ℕ) : ℕ :=
  if down_selected T bus baudrate then toUnsigned 16 T.d2u16 (FP.floor (divider bus baudrate))
  else toUnsigned 16 T.d2u16 (FP.ceil (divider bus baudrate))

/-- Line 70: `uint32_t uart_frequency = BCLK__BUS_CLK__HZ / divider_selected;`. -/
def uart_frequency (T : Target) (bus baudrate : ℕ) : ℕ :=
  udiv T bus (divider_selected T bus baudrate)

/-- Line 71: `uint32_t delay_tmr = ((BCLK__BUS_CLK__HZ / uart_frequency)*3)/4;`. -/
def delay_tmr (T : Target) (bus baudrate : ℕ) : ℕ :=
  (udiv T bus (uart_frequency T bus baudrate) * 3 % 2 ^ 32) / 4

/-- Line 73: the value of the argument `delay_tmr-3` of `Mantmr_WritePeriod`, an unsigned 32-bit
subtraction. -/
def timer_period (T : Target) (bus baudrate : ℕ) : ℕ :=
  (delay_tmr T bus baudrate + 2 ^ 32 - 3) % 2 ^ 32

/-- The peripheral calls of `void uart_baudrate(uint32_t baudrate)`, in program order
(lines 62, 73, 74, 75, 76, 78). The function has no return value and no other exit. -/
def uart_baudrate (T : Target) (bus baudrate : ℕ) : List Op :=
  [ Op.UART_2_Stop,
    Op.Mantmr_WritePeriod (timer_period T bus baudrate),
    Op.Mantmr_Stop,
    Op.Mantmr_Start,
    Op.UART_CLK_SetDividerValue (divider_selected T bus baudrate),
    Op.UART_2_Start ]

/-- The absolute relative error `|rate / B - 1|` of the divider candidate `c`, with the achievable
rate `ec / c` as the unsigned integer that lines 56-57 store. -/
def rate_error (ec B c : ℕ) : ℚ := |((ec / c : ℕ) : ℚ) / B - 1|

/-- The absolute relative error of the candidate `c` with the real-valued rate `ec / c`. -/
def exact_rate_error (ec B c : ℕ) : ℚ := |(ec : ℚ) / c / B - 1|

/-! ## The loop of `main` (main.c lines 123-231) -/

/-- The constant `USBUART_BUFFER_SIZE` (line 43), the size of `buffer`. -/
def USBUART_BUFFER_SIZE : ℕ := 64

/-- The constant `tsk_usb_BUFFER_LEN` (line 49), the maximum packet size of the bulk endpoints. -/
def tsk_usb_BUFFER_LEN : ℕ := 64

/-- What the build takes from generated headers that are not part of `main.c`. -/
structure Build where
  /-- The bus clock `BCLK__BUS_CLK__HZ`. -/
  BCLK__BUS_CLK__HZ : ℕ
  /-- The flag `USBUART_LINE_CODING_CHANGED` tested at line 204. -/
  USBUART_LINE_CODING_CHANGED : ℕ
  /-- Whether `CY_PSOC3 || CY_PSOC5LP` holds, which compiles lines 199-228 in. -/
  CY_PSOC3_or_CY_PSOC5LP : Bool

/-- What the collaborators answer during one pass of the loop body. Every call site has its own
sequence of answers, so nothing is assumed about how the answers of different sites relate. -/
structure Env where
  /-- The answer of `bldr_Read()` at line 125. -/
  bldr_Read : ℕ
  /-- The answer of `USBUART_IsConfigurationChanged()` at line 130. -/
  IsConfigurationChanged : ℕ
  /-- The answer of `USBUART_GetConfiguration()` at line 133. -/
  GetConfiguration_133 : ℕ
  /-- The answer of `USBUART_GetConfiguration()` at line 142. -/
  GetConfiguration : ℕ
  /-- The answer of `USBUART_DataIsReady()` at line 145. -/
  DataIsReady : ℕ
  /-- The bytes `USBUART_GetAll(buffer)` copies into `buffer` at line 148; it returns their
  number. -/
  GetAll : List ℕ
  /-- The successive answers of `USBUART_CDCIsReady()` in the `while` of line 153. -/
  CDCIsReady_153 : ℕ → ℕ
  /-- The answer of `UART_2_GetRxBufferSize()` at line 165. -/
  GetRxBufferSize : ℕ
  /-- The answer of `USBUART_CDCIsReady()` at line 169. -/
  CDCIsReady_169 : ℕ
  /-- The successive return values of `UART_2_GetByte()` (line 176). -/
  GetByte : ℕ → ℕ
  /-- The successive answers of `USBUART_CDCIsReady()` in the `while` of line 190. -/
  CDCIsReady_190 : ℕ → ℕ
  /-- The answer of `USBUART_IsLineChanged()` at line 200. -/
  IsLineChanged : ℕ
  /-- The answer of `USBUART_GetDTERate()` at line 206. -/
  GetDTERate : ℕ

/-- What one pass of the loop body does to its collaborators, apart from polling them. -/
inductive Ev where
  | Bootloadable_1_Load
  | USBUART_CDC_Init
  | UART_2_PutArray (data : List ℕ)
  | USBUART_PutData (data : List ℕ)
  | uart_baudrate (op : Op)
deriving DecidableEq, Repr

/-- The state one pass of the loop body works on. -/
structure St where
  /-- The local `uint8 buffer[USBUART_BUFFER_SIZE]`. -/
  buffer : List ℕ
  /-- How many times `UART_2_GetByte()` has been called. -/
  reads : ℕ
  /-- The calls made so far, oldest first. -/
  out : List Ev
deriving DecidableEq, Repr

/-- The busy wait `while (0u == USBUART_CDCIsReady()) { }` (lines 153 and 190): `k` polls have
been made; `none` when the fuel runs out before an answer is nonzero. -/
def spin (ready : ℕ → ℕ) : ℕ → ℕ → Option Unit
  | 0, _ => none
  | fuel + 1, k => if ready k = 0 then spin ready fuel (k + 1) else some ()

/-- The loop `for (uint8_t idx = 0; idx < count; ++idx) buffer[idx] = UART_2_GetByte();`
(lines 175-179), from index `idx` on; each byte read is stored as a `uint8`. -/
def fill (getByte : ℕ → ℕ) (count : ℕ) : ℕ → ℕ → St → St
  | 0, _, s => s
  | fuel + 1, idx, s =>
    if idx < count then
      fill getByte count fuel ((idx + 1) % 256)
        { s with buffer := s.buffer.set idx (getByte s.reads % 256), reads := s.reads + 1 }
    else s

/-- Lines 130-139: the CDC interface is initialised when the configuration has changed to a
nonzero one. -/
def cdc_handshake (E : Env) (s : St) : St :=
  if E.IsConfigurationChanged ≠ 0 ∧ E.GetConfiguration_133 ≠ 0 then
    { s with out := s.out ++ [Ev.USBUART_CDC_Init] }
  else s

/-- Lines 145-163: the host→UART direction. -/
def host_to_uart (fuel : ℕ) (E : Env) (s : St) : Option St :=
  if E.DataIsReady ≠ 0 then
    let count := E.GetAll.length
    let s1 := { s with buffer := E.GetAll ++ s.buffer.drop E.GetAll.length }
    if count ≠ 0 then
      match spin E.CDCIsReady_153 fuel 0 with
      | none => none
      | some _ => some { s1 with out := s1.out ++ [Ev.UART_2_PutArray (s1.buffer.take count)] }
    else some s1
  else some s

/-- Lines 165-166: `count = UART_2_GetRxBufferSize();` clamped to `tsk_usb_BUFFER_LEN`. -/
def rx_count (E : Env) : ℕ :=
  if E.GetRxBufferSize % 2 ^ 16 > tsk_usb_BUFFER_LEN then tsk_usb_BUFFER_LEN
  else E.GetRxBufferSize % 2 ^ 16

/-- Lines 165-195: the UART→host direction with the zero-length-packet rule. -/
def uart_to_host (fuel : ℕ) (E : Env) (s : St) : Option St :=
  let count := rx_count E
  if E.CDCIsReady_169 ≠ 0 ∧ count > 0 then
    let s1 := fill E.GetByte count count 0 s
    let s2 := { s1 with out := s1.out ++ [Ev.USBUART_PutData (s1.buffer.take count)] }
    if count = tsk_usb_BUFFER_LEN then
      match spin E.CDCIsReady_190 fuel 0 with
      | none => none
      | some _ => some { s2 with out := s2.out ++ [Ev.USBUART_PutData []] }
    else some s2
  else some s

/-- Lines 198-229: when the line coding has changed, `uart_baudrate(USBUART_GetDTERate())` is
called; `state` is a `uint8`. A change of the line control has no effect. -/
def line_change (T : Target) (K : Build) (E : Env) (s : St) : St :=
  if K.CY_PSOC3_or_CY_PSOC5LP = true ∧ E.IsLineChanged % 256 ≠ 0 ∧
      Nat.land (E.IsLineChanged % 256) K.USBUART_LINE_CODING_CHANGED ≠ 0 then
    { s with out := s.out ++
        (uart_baudrate T K.BCLK__BUS_CLK__HZ (E.GetDTERate % 2 ^ 32)).map Ev.uart_baudrate }
  else s

/-- One pass of the body of `for(;;)` in `main` (lines 125-230): `none` when a busy wait outlasts
the fuel. `Bootloadable_1_Load()` hands control to the boot loader and does not return, so the
pass ends with it. -/
def loop_body (T : Target) (K : Build) (fuel : ℕ) (E : Env) (s : St) : Option St :=
  if E.bldr_Read = 0 then some { s with out := s.out ++ [Ev.Bootloadable_1_Load] }
  else
    if E.GetConfiguration ≠ 0 then
      match host_to_uart fuel E (cdc_handshake E s) with
      | none => none
      | some s1 =>
        match uart_to_host fuel E s1 with
        | none => none
        | some s2 => some (line_change T K E s2)
    else some (cdc_handshake E s)

/-- The bytes handed to the UART transmitter, in order. -/
def uart_tx : List Ev → List ℕ
  | [] => []
  | Ev.UART_2_PutArray d :: es => d ++ uart_tx es
  | _ :: es => uart_tx es

/-- The packets handed to the USB IN endpoint, in order. -/
def usb_packets : List Ev → List (List ℕ)
  | [] => []
  | Ev.USBUART_PutData d :: es => d :: usb_packets es
  | _ :: es => usb_packets es

/-- Whether a call moves data, to the UART transmitter or to the host. -/
def Ev.isData : Ev → Bool
  | Ev.UART_2_PutArray _ => true
  | Ev.USBUART_PutData _ => true
  | _ => false

/-- The initial state of a pass: a 64-byte buffer with the given contents, nothing read or sent
yet. -/
def St.init (buffer : List ℕ) : St := { buffer := buffer, reads := 0, out := [] }

/-- The PSoC 5LP build with a 24 MHz bus clock; the line-coding flag is bit 0. -/
def build_example : Build where
  BCLK__BUS_CLK__HZ := 24000000
  USBUART_LINE_CODING_CHANGED := 1
  CY_PSOC3_or_CY_PSOC5LP := true

/-- A configured pass: the boot-loader trigger is inactive, the host has sent 10 bytes, the IN
endpoint becomes ready at the third poll of line 153, 64 bytes are pending in the UART receiver,
the IN endpoint is ready at line 169 and again at the second poll of line 190, and the host has
set the line coding to 9600 baud. -/
def env_example : Env where
  bldr_Read := 1
  IsConfigurationChanged := 0
  GetConfiguration_133 := 1
  GetConfiguration := 1
  DataIsReady := 1
  GetAll := [72, 101, 108, 108, 111, 32, 85, 68, 51, 10]
  CDCIsReady_153 := fun k => if k < 2 then 0 else 1
  GetRxBufferSize := 64
  CDCIsReady_169 := 1
  GetByte := fun k => 65 + k
  CDCIsReady_190 := fun k => if k < 1 then 0 else 1
  IsLineChanged := 1
  GetDTERate := 9600

/-! ## Properties of the rounding functions -/

theorem log2Search_spec (f n k : ℕ) (h1 : 2 ^ k ≤ n) (h2 : n < 2 ^ (k + f)) :
    2 ^ log2Search f n k ≤ n ∧ n < 2 ^ (log2Search f n k + 1) := by
  induction f generalizing k with
  | zero => exact absurd h2 (by simpa using h1)
  | succ f ih =>
    unfold log2Search
    split_ifs with h
    · exact ⟨h1, h⟩
    · exact ih (k + 1) (not_lt.mp h) (by rwa [show k + 1 + f = k + (f + 1) by omega])

theorem ilog2_spec (n : ℕ) (hn : 0 < n) : 2 ^ ilog2 n ≤ n ∧ n < 2 ^ (ilog2 n + 1) := by
  unfold ilog2
  exact log2Search_spec n n 0 (by simpa using hn) (by simpa using Nat.lt_two_pow n)

theorem expo_spec (x : ℚ) (hx : 0 < x) :
    (2 : ℚ) ^ expo x ≤ x ∧ x < (2 : ℚ) ^ (expo x + 1) := by
  have hnum : 0 < x.num := Rat.num_pos.mpr hx
  have hn : 0 < x.num.natAbs := Int.natAbs_pos.mpr hnum.ne'
  have hd : 0 < x.den := x.den_pos
  obtain ⟨ha1, ha2⟩ := ilog2_spec _ hn
  obtain ⟨hb1, hb2⟩ := ilog2_spec _ hd
  have hxd : x * (x.den : ℚ) = (x.num.natAbs : ℚ) := by
    have h1 : ((x.num.natAbs : ℤ) : ℚ) = (x.num : ℚ) :=
      congrArg (Int.cast : ℤ → ℚ) (Int.natAbs_of_nonneg hnum.le)
    rw [Rat.mul_den_eq_num, ← h1, Int.cast_natCast]
  have hdq : (0 : ℚ) < (x.den : ℚ) := by exact_mod_cast hd
  have ha1q : (2 : ℚ) ^ (ilog2 x.num.natAbs) ≤ (x.num.natAbs : ℚ) := by exact_mod_cast ha1
  have ha2q : (x.num.natAbs : ℚ) < (2 : ℚ) ^ (ilog2 x.num.natAbs + 1) := by exact_mod_cast ha2
  have hb1q : (2 : ℚ) ^ (ilog2 x.den) ≤ (x.den : ℚ) := by exact_mod_cast hb1
  have hb2q : (x.den : ℚ) < (2 : ℚ) ^ (ilog2 x.den + 1) := by exact_mod_cast hb2
  have h2 : (2 : ℚ) ≠ 0 := two_ne_zero
  have hpa : (0 : ℚ) < (2 : ℚ) ^ (ilog2 x.num.natAbs) := by positivity
  have hpb : (0 : ℚ) < (2 : ℚ) ^ (ilog2 x.den) := by positivity
  have key : ∀ a b : ℕ, (2 : ℚ) ^ ((a : ℤ) - (b : ℤ)) = (2 : ℚ) ^ a / (2 : ℚ) ^ b := by
    intro a b
    rw [zpow_sub₀ h2, zpow_natCast, zpow_natCast]
  have hlt : x < (2 : ℚ) ^ (ilog2 x.num.natAbs + 1) / (2 : ℚ) ^ ilog2 x.den := by
    rw [lt_div_iff₀ hpb]
    calc x * 2 ^ ilog2 x.den ≤ x * x.den := mul_le_mul_of_nonneg_left hb1q hx.le
      _ = x.num.natAbs := hxd
      _ < _ := ha2q
  have hge : (2 : ℚ) ^ ilog2 x.num.natAbs / (2 : ℚ) ^ (ilog2 x.den + 1) ≤ x := by
    rw [div_le_iff₀ (by positivity)]
    calc (2 : ℚ) ^ ilog2 x.num.natAbs ≤ x.num.natAbs := ha1q
      _ = x * x.den := hxd.symm
      _ ≤ x * 2 ^ (ilog2 x.den + 1) := mul_le_mul_of_nonneg_left hb2q.le hx.le
  unfold expo
  split_ifs with h
  · refine ⟨h, ?_⟩
    rw [zpow_add_one₀ h2, key, div_mul_eq_mul_div, ← pow_succ]
    exact hlt
  · constructor
    · rw [zpow_sub_one₀ h2, key, ← div_eq_mul_inv, div_div, ← pow_succ]
      exact hge
    · rw [sub_add_cancel]
      exact not_le.mp h

theorem expo_mono {x y : ℚ} (hx : 0 < x) (hxy : x ≤ y) : expo x ≤ expo y := by
  by_contra hcon
  push_neg at hcon
  have h1 := (expo_spec x hx).1
  have h2 := (expo_spec y (hx.trans_le hxy)).2
  have h3 : (2 : ℚ) ^ (expo y + 1) ≤ 2 ^ expo x :=
    zpow_le_zpow_right₀ (by norm_num) (by omega)
  linarith

theorem rne_floor_le (x : ℚ) : ⌊x⌋ ≤ rne x := by
  unfold rne
  split_ifs <;> omega

theorem rne_le_floor_add_one (x : ℚ) : rne x ≤ ⌊x⌋ + 1 := by
  unfold rne
  split_ifs <;> omega

theorem rne_intCast (k : ℤ) : rne (k : ℚ) = k := by
  unfold rne
  simp

theorem abs_rne_sub_le (x : ℚ) : |(rne x : ℚ) - x| ≤ 1 / 2 := by
  have h1 := Int.floor_le x
  have h2 := Int.lt_floor_add_one x
  unfold rne
  rw [abs_le]
  split_ifs with ha hb hc <;> push_cast <;> constructor <;> linarith

theorem rne_mono {x y : ℚ} (h : x ≤ y) : rne x ≤ rne y := by
  rcases (Int.floor_mono h).lt_or_eq with hlt | heq
  · calc rne x ≤ ⌊x⌋ + 1 := rne_le_floor_add_one x
      _ ≤ ⌊y⌋ := hlt
      _ ≤ rne y := rne_floor_le y
  · unfold rne
    rw [← heq]
    split_ifs <;> first | omega | (exfalso; linarith)

theorem rnd_scaled_bounds (p : ℕ) (hp : 1 ≤ p) (x : ℚ) (hx : 0 < x) :
    ((2 ^ (p - 1) : ℤ) : ℚ) ≤ x / 2 ^ (expo x - ((p : ℤ) - 1)) ∧
    x / 2 ^ (expo x - ((p : ℤ) - 1)) ≤ ((2 ^ p : ℤ) : ℚ) := by
  obtain ⟨h1, h2⟩ := expo_spec x hx
  have h20 : (2 : ℚ) ≠ 0 := two_ne_zero
  have hpos : (0 : ℚ) < 2 ^ (expo x - ((p : ℤ) - 1)) := by positivity
  have he : ((p - 1 : ℕ) : ℤ) = (p : ℤ) - 1 := by omega
  constructor
  · rw [le_div_iff₀ hpos]
    push_cast
    rw [← zpow_natCast, ← zpow_add₀ h20, he]
    rwa [show (p : ℤ) - 1 + (expo x - ((p : ℤ) - 1)) = expo x by ring]
  · rw [div_le_iff₀ hpos]
    push_cast
    rw [← zpow_natCast, ← zpow_add₀ h20]
    rw [show (p : ℤ) + (expo x - ((p : ℤ) - 1)) = expo x + 1 by ring]
    exact h2.le

theorem rnd_ge (p : ℕ) (hp : 1 ≤ p) (x : ℚ) (hx : 0 < x) : (2 : ℚ) ^ expo x ≤ rnd p x := by
  have hb := (rnd_scaled_bounds p hp x hx).1
  have h20 : (2 : ℚ) ≠ 0 := two_ne_zero
  have hpos : (0 : ℚ) < 2 ^ (expo x - ((p : ℤ) - 1)) := by positivity
  have he : ((p - 1 : ℕ) : ℤ) = (p : ℤ) - 1 := by omega
  have h1 : (2 ^ (p - 1) : ℤ) ≤ rne (x / 2 ^ (expo x - ((p : ℤ) - 1))) := by
    have := rne_mono hb
    rwa [rne_intCast] at this
  have h2 : ((2 ^ (p - 1) : ℤ) : ℚ) ≤ (rne (x / 2 ^ (expo x - ((p : ℤ) - 1))) : ℚ) := by
    exact_mod_cast h1
  unfold rnd
  calc (2 : ℚ) ^ expo x = ((2 ^ (p - 1) : ℤ) : ℚ) * 2 ^ (expo x - ((p : ℤ) - 1)) := by
        push_cast
        rw [← zpow_natCast, ← zpow_add₀ h20, he]
        congr 1
        ring
    _ ≤ _ := mul_le_mul_of_nonneg_right h2 hpos.le

theorem rnd_le (p : ℕ) (hp : 1 ≤ p) (x : ℚ) (hx : 0 < x) : rnd p x ≤ (2 : ℚ) ^ (expo x + 1) := by
  have hb := (rnd_scaled_bounds p hp x hx).2
  have h20 : (2 : ℚ) ≠ 0 := two_ne_zero
  have hpos : (0 : ℚ) < 2 ^ (expo x - ((p : ℤ) - 1)) := by positivity
  have h1 : rne (x / 2 ^ (expo x - ((p : ℤ) - 1))) ≤ (2 ^ p : ℤ) := by
    have := rne_mono hb
    rwa [rne_intCast] at this
  have h2 : (rne (x / 2 ^ (expo x - ((p : ℤ) - 1))) : ℚ) ≤ ((2 ^ p : ℤ) : ℚ) := by
    exact_mod_cast h1
  unfold rnd
  calc _ ≤ ((2 ^ p : ℤ) : ℚ) * 2 ^ (expo x - ((p : ℤ) - 1)) :=
        mul_le_mul_of_nonneg_right h2 hpos.le
    _ = (2 : ℚ) ^ (expo x + 1) := by
        push_cast
        rw [← zpow_natCast, ← zpow_add₀ h20]
        congr 1
        ring

theorem rnd_pos (p : ℕ) (hp : 1 ≤ p) (x : ℚ) (hx : 0 < x) : 0 < rnd p x :=
  lt_of_lt_of_le (by positivity) (rnd_ge p hp x hx)

theorem rnd_err (p : ℕ) (x : ℚ) (hx : 0 < x) :
    |rnd p x - x| ≤ x / 2 ^ p := by
  obtain ⟨h1, -⟩ := expo_spec x hx
  have h20 : (2 : ℚ) ≠ 0 := two_ne_zero
  have hpos : (0 : ℚ) < 2 ^ (expo x - ((p : ℤ) - 1)) := by positivity
  have hr := abs_rne_sub_le (x / 2 ^ (expo x - ((p : ℤ) - 1)))
  have hx' : x / 2 ^ (expo x - ((p : ℤ) - 1)) * 2 ^ (expo x - ((p : ℤ) - 1)) = x :=
    div_mul_cancel₀ x hpos.ne'
  have hEq : rnd p x - x =
      ((rne (x / 2 ^ (expo x - ((p : ℤ) - 1))) : ℚ) - x / 2 ^ (expo x - ((p : ℤ) - 1))) *
        2 ^ (expo x - ((p : ℤ) - 1)) := by
    unfold rnd
    rw [sub_mul, hx']
  have hstep : (2 : ℚ) ^ (expo x - ((p : ℤ) - 1)) = 2 ^ expo x * 2 / 2 ^ p := by
    rw [zpow_sub₀ h20, zpow_sub_one₀ h20, zpow_natCast]
    field_simp
  rw [hEq, abs_mul, abs_of_pos hpos]
  calc _ ≤ 1 / 2 * (2 : ℚ) ^ (expo x - ((p : ℤ) - 1)) :=
        mul_le_mul_of_nonneg_right hr hpos.le
    _ = 2 ^ expo x / 2 ^ p := by rw [hstep]; ring
    _ ≤ x / 2 ^ p := by
        apply div_le_div_of_nonneg_right h1
        positivity

theorem rnd_mono (p : ℕ) (hp : 1 ≤ p) {x y : ℚ} (hx : 0 < x) (hxy : x ≤ y) :
    rnd p x ≤ rnd p y := by
  have hy : 0 < y := hx.trans_le hxy
  rcases (expo_mono hx hxy).lt_or_eq with hlt | heq
  · calc rnd p x ≤ (2 : ℚ) ^ (expo x + 1) := rnd_le p hp x hx
      _ ≤ (2 : ℚ) ^ expo y := zpow_le_zpow_right₀ (by norm_num) (by omega)
      _ ≤ rnd p y := rnd_ge p hp y hy
  · unfold rnd
    rw [heq]
    have hpos : (0 : ℚ) < 2 ^ (expo y - ((p : ℤ) - 1)) := by positivity
    apply mul_le_mul_of_nonneg_right _ hpos.le
    have : x / 2 ^ (expo y - ((p : ℤ) - 1)) ≤ y / 2 ^ (expo y - ((p : ℤ) - 1)) :=
      div_le_div_of_nonneg_right hxy hpos.le
    exact_mod_cast rne_mono this

theorem rnd_natCast (p : ℕ) (n : ℕ) (hn : 0 < n) (hlt : n < 2 ^ p) : rnd p (n : ℚ) = n := by
  have hx : (0 : ℚ) < (n : ℚ) := by exact_mod_cast hn
  obtain ⟨h1, -⟩ := expo_spec (n : ℚ) hx
  have h20 : (2 : ℚ) ≠ 0 := two_ne_zero
  have hE : expo (n : ℚ) < p := by
    by_contra hcon
    push_neg at hcon
    have h3 : (2 : ℚ) ^ (p : ℤ) ≤ 2 ^ expo (n : ℚ) := zpow_le_zpow_right₀ (by norm_num) hcon
    have h4 : (n : ℚ) < (2 : ℚ) ^ (p : ℤ) := by
      rw [zpow_natCast]
      exact_mod_cast hlt
    linarith
  obtain ⟨k, hk⟩ : ∃ k : ℕ, expo (n : ℚ) - ((p : ℤ) - 1) = -(k : ℤ) :=
    ⟨((p : ℤ) - 1 - expo (n : ℚ)).toNat, by omega⟩
  unfold rnd
  rw [hk, zpow_neg, zpow_natCast, div_inv_eq_mul]
  have : (n : ℚ) * 2 ^ k = ((n * 2 ^ k : ℤ) : ℚ) := by push_cast; ring
  rw [this, rne_intCast]
  push_cast
  field_simp

theorem roundNE_zero (p : ℕ) : roundNE p 0 = 0 := by
  simp [roundNE]

theorem roundNE_of_pos (p : ℕ) {x : ℚ} (hx : 0 < x) : roundNE p x = rnd p x := by
  simp [roundNE, hx, hx.ne']

theorem roundNE_neg (p : ℕ) (x : ℚ) : roundNE p (-x) = -roundNE p x := by
  rcases lt_trichotomy x 0 with h | h | h
  · have h' : 0 < -x := neg_pos.mpr h
    simp [roundNE, h, h.ne, h'.ne', not_lt.mpr h.le, h']
  · simp [h, roundNE_zero]
  · have h' : -x < 0 := neg_neg_of_pos h
    simp [roundNE, h, h.ne', h'.ne, not_lt.mpr h'.le]

theorem roundNE_nonneg (p : ℕ) (hp : 1 ≤ p) {x : ℚ} (hx : 0 ≤ x) : 0 ≤ roundNE p x := by
  rcases hx.lt_or_eq with h | h
  · rw [roundNE_of_pos p h]
    exact (rnd_pos p hp x h).le
  · rw [← h, roundNE_zero]

theorem roundNE_mono (p : ℕ) (hp : 1 ≤ p) {x y : ℚ} (hx : 0 ≤ x) (hxy : x ≤ y) :
    roundNE p x ≤ roundNE p y := by
  rcases hx.lt_or_eq with h | h
  · rw [roundNE_of_pos p h, roundNE_of_pos p (h.trans_le hxy)]
    exact rnd_mono p hp h hxy
  · rw [← h, roundNE_zero]
    exact roundNE_nonneg p hp (hx.trans hxy)

theorem roundNE_natCast (p : ℕ) (n : ℕ) (hlt : n < 2 ^ p) : roundNE p (n : ℚ) = n := by
  rcases Nat.eq_zero_or_pos n with h | h
  · simp [h, roundNE_zero]
  · rw [roundNE_of_pos p (by exact_mod_cast h)]
    exact rnd_natCast p n h hlt

theorem roundNE_err (p : ℕ) {x : ℚ} (hx : 0 ≤ x) : |roundNE p x - x| ≤ x / 2 ^ p := by
  rcases hx.lt_or_eq with h | h
  · rw [roundNE_of_pos p h]
    exact rnd_err p x h
  · simp [← h, roundNE_zero]

theorem roundNE_le (p : ℕ) {x : ℚ} (hx : 0 ≤ x) : roundNE p x ≤ x + x / 2 ^ p := by
  have := (abs_le.mp (roundNE_err p hx)).2
  linarith

theorem roundNE_ge (p : ℕ) {x : ℚ} (hx : 0 ≤ x) : x - x / 2 ^ p ≤ roundNE p x := by
  have := (abs_le.mp (roundNE_err p hx)).1
  linarith

/-- For a quotient of naturals whose numerator fits the precision, the rounding error is smaller
than one unit of the denominator. -/
theorem quot_err_lt (p : ℕ) (a b : ℕ) (hb : 0 < b) (ha : a < 2 ^ p) :
    (a : ℚ) / b / 2 ^ p < 1 / b := by
  have hbq : (0 : ℚ) < b := by exact_mod_cast hb
  have haq : (a : ℚ) < 2 ^ p := by exact_mod_cast ha
  rw [div_div, div_lt_div_iff₀ (by positivity) hbq]
  calc (a : ℚ) * b < 2 ^ p * b := mul_lt_mul_of_pos_right haq hbq
    _ = 1 * (b * 2 ^ p) := by ring

theorem roundNE_div_lt (p : ℕ) (a b : ℕ) (hb : 0 < b) (ha : a < 2 ^ p) (z : ℤ)
    (hz : (a : ℚ) / b < z) : roundNE p ((a : ℚ) / b) < z := by
  have hbq : (0 : ℚ) < b := by exact_mod_cast hb
  have h1 : (a : ℤ) < z * b := by
    have : (a : ℚ) < z * b := (div_lt_iff₀ hbq).mp hz
    exact_mod_cast this
  have h2 : (a : ℚ) + 1 ≤ z * b := by exact_mod_cast Int.add_one_le_of_lt h1
  have h3 : (a : ℚ) / b + 1 / b ≤ z := by
    rw [← add_div, div_le_iff₀ hbq]
    exact h2
  have h4 := roundNE_le p (x := (a : ℚ) / b) (by positivity)
  have h5 := quot_err_lt p a b hb ha
  linarith

theorem lt_roundNE_div (p : ℕ) (a b : ℕ) (hb : 0 < b) (ha : a < 2 ^ p) (z : ℤ)
    (hz : (z : ℚ) < (a : ℚ) / b) : (z : ℚ) < roundNE p ((a : ℚ) / b) := by
  have hbq : (0 : ℚ) < b := by exact_mod_cast hb
  have h1 : z * b < (a : ℤ) := by
    have : (z : ℚ) * b < a := (lt_div_iff₀ hbq).mp hz
    exact_mod_cast this
  have h2 : (z : ℚ) * b + 1 ≤ a := by exact_mod_cast Int.add_one_le_of_lt h1
  have h3 : (z : ℚ) + 1 / b ≤ (a : ℚ) / b := by
    rw [le_div_iff₀ hbq, add_mul, one_div, inv_mul_cancel₀ hbq.ne']
    exact h2
  have h4 := roundNE_ge p (x := (a : ℚ) / b) (by positivity)
  have h5 := quot_err_lt p a b hb ha
  linarith

theorem quot_le_num (a b : ℕ) (hb : 0 < b) : (a : ℚ) / b ≤ a := by
  have hbq : (1 : ℚ) ≤ b := by exact_mod_cast hb
  exact div_le_self (by positivity) hbq

/-- Rounding a quotient of naturals does not move it across an integer: the floor is kept. -/
theorem floor_roundNE_div (p : ℕ) (hp : 1 ≤ p) (a b : ℕ) (hb : 0 < b) (ha : a < 2 ^ p) :
    ⌊roundNE p ((a : ℚ) / b)⌋ = ⌊(a : ℚ) / b⌋ := by
  have hq0 : (0 : ℚ) ≤ (a : ℚ) / b := by positivity
  rw [Int.floor_eq_iff]
  constructor
  · have hz : 0 ≤ ⌊(a : ℚ) / b⌋ := Int.floor_nonneg.mpr hq0
    obtain ⟨n, hn⟩ := Int.eq_ofNat_of_zero_le hz
    have hnq : (n : ℚ) ≤ (a : ℚ) / b := by
      have := Int.floor_le ((a : ℚ) / b)
      rw [hn] at this
      exact_mod_cast this
    have hna : n < 2 ^ p := by
      have h1 : (n : ℚ) ≤ a := hnq.trans (quot_le_num a b hb)
      have h2 : n ≤ a := by exact_mod_cast h1
      omega
    have := roundNE_mono p hp (by positivity) hnq
    rw [roundNE_natCast p n hna] at this
    rw [hn]
    exact_mod_cast this
  · have := roundNE_div_lt p a b hb ha (⌊(a : ℚ) / b⌋ + 1)
      (by push_cast; exact Int.lt_floor_add_one _)
    exact_mod_cast this

/-- Rounding a quotient of naturals does not move it across an integer: the ceiling is kept. -/
theorem ceil_roundNE_div (p : ℕ) (hp : 1 ≤ p) (a b : ℕ) (hb : 0 < b) (ha : a < 2 ^ p) :
    ⌈roundNE p ((a : ℚ) / b)⌉ = ⌈(a : ℚ) / b⌉ := by
  have hq0 : (0 : ℚ) ≤ (a : ℚ) / b := by positivity
  rw [Int.ceil_eq_iff]
  constructor
  · have := lt_roundNE_div p a b hb ha (⌈(a : ℚ) / b⌉ - 1)
      (by push_cast; linarith [Int.ceil_lt_add_one ((a : ℚ) / b)])
    exact_mod_cast this
  · have hz : 0 ≤ ⌈(a : ℚ) / b⌉ := Int.ceil_nonneg hq0
    obtain ⟨n, hn⟩ := Int.eq_ofNat_of_zero_le hz
    have hnq : (a : ℚ) / b ≤ (n : ℚ) := by
      have := Int.le_ceil ((a : ℚ) / b)
      rw [hn] at this
      exact_mod_cast this
    have hna : n < 2 ^ p := by
      have h1 : ⌈(a : ℚ) / b⌉ ≤ (a : ℤ) := by
        rw [Int.ceil_le]
        exact_mod_cast quot_le_num a b hb
      omega
    have := roundNE_mono p hp hq0 hnq
    rw [roundNE_natCast p n hna] at this
    rw [hn]
    exact_mod_cast this

/-! ### Exactness on the grid of representable values -/

theorem expo_eq (x : ℚ) (hx : 0 < x) (k : ℤ) (h1 : (2 : ℚ) ^ k ≤ x) (h2 : x < (2 : ℚ) ^ (k + 1)) :
    expo x = k := by
  obtain ⟨e1, e2⟩ := expo_spec x hx
  apply le_antisymm
  · by_contra hcon
    push_neg at hcon
    have : (2 : ℚ) ^ (k + 1) ≤ 2 ^ expo x := zpow_le_zpow_right₀ (by norm_num) (by omega)
    linarith
  · by_contra hcon
    push_neg at hcon
    have : (2 : ℚ) ^ (expo x + 1) ≤ 2 ^ k := zpow_le_zpow_right₀ (by norm_num) (by omega)
    linarith

/-- The rounded value is an integer mantissa of `p` bits times the unit of the binade. -/
theorem rnd_mantissa (p : ℕ) (hp : 1 ≤ p) (x : ℚ) (hx : 0 < x) :
    ∃ M : ℕ, 2 ^ (p - 1) ≤ M ∧ M ≤ 2 ^ p ∧
      rnd p x = (M : ℚ) * 2 ^ (expo x - ((p : ℤ) - 1)) := by
  obtain ⟨hb1, hb2⟩ := rnd_scaled_bounds p hp x hx
  have h1 : (2 ^ (p - 1) : ℤ) ≤ rne (x / 2 ^ (expo x - ((p : ℤ) - 1))) := by
    have := rne_mono hb1
    rwa [rne_intCast] at this
  have h2 : rne (x / 2 ^ (expo x - ((p : ℤ) - 1))) ≤ (2 ^ p : ℤ) := by
    have := rne_mono hb2
    rwa [rne_intCast] at this
  have h0 : 0 ≤ rne (x / 2 ^ (expo x - ((p : ℤ) - 1))) := le_trans (by positivity) h1
  obtain ⟨M, hM⟩ := Int.eq_ofNat_of_zero_le h0
  refine ⟨M, ?_, ?_, ?_⟩
  · rw [hM] at h1
    exact_mod_cast h1
  · rw [hM] at h2
    exact_mod_cast h2
  · unfold rnd
    rw [hM]
    norm_cast

/-- A value with a mantissa below `2 ^ p` is representable: rounding leaves it unchanged. -/
theorem roundNE_dyadic (p : ℕ) (k : ℕ) (g : ℤ) (hk : k < 2 ^ p) :
    roundNE p ((k : ℚ) * 2 ^ g) = (k : ℚ) * 2 ^ g := by
  rcases Nat.eq_zero_or_pos k with h0 | hpos
  · simp [h0, roundNE_zero]
  have h20 : (2 : ℚ) ≠ 0 := two_ne_zero
  have hkq : (0 : ℚ) < (k : ℚ) := by exact_mod_cast hpos
  have hx : (0 : ℚ) < (k : ℚ) * 2 ^ g := by positivity
  obtain ⟨e1, -⟩ := expo_spec _ hx
  have hE : expo ((k : ℚ) * 2 ^ g) < (p : ℤ) + g := by
    by_contra hcon
    push_neg at hcon
    have h3 : (2 : ℚ) ^ ((p : ℤ) + g) ≤ 2 ^ expo ((k : ℚ) * 2 ^ g) :=
      zpow_le_zpow_right₀ (by norm_num) hcon
    have h4 : (k : ℚ) * 2 ^ g < (2 : ℚ) ^ ((p : ℤ) + g) := by
      rw [zpow_add₀ h20, zpow_natCast]
      apply mul_lt_mul_of_pos_right _ (by positivity)
      exact_mod_cast hk
    linarith
  obtain ⟨j, hj⟩ : ∃ j : ℕ, g - (expo ((k : ℚ) * 2 ^ g) - ((p : ℤ) - 1)) = (j : ℤ) :=
    ⟨(g - (expo ((k : ℚ) * 2 ^ g) - ((p : ℤ) - 1))).toNat, by omega⟩
  have hscaled : (k : ℚ) * 2 ^ g / 2 ^ (expo ((k : ℚ) * 2 ^ g) - ((p : ℤ) - 1)) =
      ((k * 2 ^ j : ℤ) : ℚ) := by
    rw [mul_div_assoc, ← zpow_sub₀ h20, hj, zpow_natCast]
    push_cast
    ring
  rw [roundNE_of_pos p hx]
  unfold rnd
  rw [hscaled, rne_intCast]
  push_cast
  rw [← zpow_natCast, ← hj, mul_assoc, ← zpow_add₀ h20]
  congr 2
  ring

/-- The rounding error is at most half a unit of the binade of the operand. -/
theorem roundNE_abs_err (p : ℕ) (x : ℚ) (hx : 0 < x) (k : ℤ) (h1 : (2 : ℚ) ^ k ≤ x)
    (h2 : x < (2 : ℚ) ^ (k + 1)) : |roundNE p x - x| ≤ 2 ^ k / 2 ^ p := by
  have hk := expo_eq x hx k h1 h2
  have h20 : (2 : ℚ) ≠ 0 := two_ne_zero
  have hpos : (0 : ℚ) < 2 ^ (expo x - ((p : ℤ) - 1)) := by positivity
  have hr := abs_rne_sub_le (x / 2 ^ (expo x - ((p : ℤ) - 1)))
  have hx' : x / 2 ^ (expo x - ((p : ℤ) - 1)) * 2 ^ (expo x - ((p : ℤ) - 1)) = x :=
    div_mul_cancel₀ x hpos.ne'
  have hEq : rnd p x - x =
      ((rne (x / 2 ^ (expo x - ((p : ℤ) - 1))) : ℚ) - x / 2 ^ (expo x - ((p : ℤ) - 1))) *
        2 ^ (expo x - ((p : ℤ) - 1)) := by
    unfold rnd
    rw [sub_mul, hx']
  have hstep : (2 : ℚ) ^ (expo x - ((p : ℤ) - 1)) = 2 ^ expo x * 2 / 2 ^ p := by
    rw [zpow_sub₀ h20, zpow_sub_one₀ h20, zpow_natCast]
    field_simp
  rw [roundNE_of_pos p hx, hEq, abs_mul, abs_of_pos hpos, ← hk]
  calc _ ≤ 1 / 2 * (2 : ℚ) ^ (expo x - ((p : ℤ) - 1)) :=
        mul_le_mul_of_nonneg_right hr hpos.le
    _ = 2 ^ expo x / 2 ^ p := by rw [hstep]; ring

/-- Subtracting 1 from a single-precision value of `[1, 2)` is exact. -/
theorem sub_one_exact (x : ℚ) (h1 : 1 ≤ x) (h2 : x < 2) :
    roundNE 24 (roundNE 24 x - 1) = roundNE 24 x - 1 := by
  have hx : (0 : ℚ) < x := by linarith
  have hk : expo x = 0 := expo_eq x hx 0 (by simpa using h1) (by simpa using h2)
  obtain ⟨M, m1, m2, hM⟩ := rnd_mantissa 24 (by norm_num) x hx
  rw [hk] at hM
  have hval : roundNE 24 x - 1 = ((M - 2 ^ 23 : ℕ) : ℚ) * 2 ^ (-23 : ℤ) := by
    rw [roundNE_of_pos 24 hx, hM, Nat.cast_sub (by simpa using m1)]
    norm_num
    ring
  rw [hval]
  apply roundNE_dyadic
  have : M ≤ 2 ^ 24 := m2
  omega

/-- Subtracting a single-precision value of `[1/2, 1]` from 1 is exact. -/
theorem one_sub_exact (x : ℚ) (h1 : 1 / 2 ≤ x) (h2 : x ≤ 1) :
    roundNE 24 (1 - roundNE 24 x) = 1 - roundNE 24 x := by
  have hx : (0 : ℚ) < x := by linarith
  rcases h2.lt_or_eq with hlt | heq
  · have hk : expo x = -1 := expo_eq x hx (-1) (by norm_num; linarith) (by simpa using hlt)
    obtain ⟨M, m1, m2, hM⟩ := rnd_mantissa 24 (by norm_num) x hx
    rw [hk] at hM
    have hval : 1 - roundNE 24 x = ((2 ^ 24 - M : ℕ) : ℚ) * 2 ^ (-24 : ℤ) := by
      rw [roundNE_of_pos 24 hx, hM, Nat.cast_sub m2]
      norm_num
      ring
    rw [hval]
    apply roundNE_dyadic
    have : 2 ^ 23 ≤ M := by simpa using m1
    omega
  · have h1' : roundNE 24 x = 1 := by
      rw [heq]
      have := roundNE_natCast 24 1 (by norm_num)
      simpa using this
    rw [h1']
    simp [roundNE_zero]

/-! ## The divider search on requests within range -/

theorem ofNat_exact (p n : ℕ) (h : n < 2 ^ p) : FP.ofNat p n = FP.fin (n : ℚ) := by
  unfold FP.ofNat
  rw [roundNE_natCast p n h]

theorem divider_fin (bus B : ℕ) (hB : 0 < B) (hB2 : B < 2 ^ 24) (hec : bus / 8 < 2 ^ 24) :
    divider bus B = FP.fin (roundNE 24 (((bus / 8 : ℕ) : ℚ) / (B : ℚ))) := by
  have hBq : (B : ℚ) ≠ 0 := by exact_mod_cast hB.ne'
  unfold divider
  rw [ofNat_exact 24 _ hec, ofNat_exact 24 _ hB2]
  simp [FP.div, hBq]

theorem floor_divider (bus B : ℕ) (hB : 0 < B) (hB2 : B < 2 ^ 24) (hec : bus / 8 < 2 ^ 24) :
    FP.floor (divider bus B) = FP.fin ((bus / 8 / B : ℕ) : ℚ) := by
  rw [divider_fin bus B hB hB2 hec]
  simp only [FP.floor]
  rw [floor_roundNE_div 24 (by norm_num) _ _ hB hec, Rat.floor_natCast_div_natCast]
  norm_cast

theorem ceil_divider (bus B : ℕ) (hB : 0 < B) (hB2 : B < 2 ^ 24) (hec : bus / 8 < 2 ^ 24) :
    FP.ceil (divider bus B) = FP.fin ((⌈((bus / 8 : ℕ) : ℚ) / (B : ℚ)⌉₊ : ℕ) : ℚ) := by
  rw [divider_fin bus B hB hB2 hec]
  simp only [FP.ceil]
  rw [ceil_roundNE_div 24 (by norm_num) _ _ hB hec,
    ← Int.natCast_ceil_eq_ceil (by positivity)]
  norm_cast

theorem toUnsigned_natCast (w : ℕ) (oor : FP → ℕ) (n : ℕ) (h : n < 2 ^ w) :
    toUnsigned w oor (FP.fin (n : ℚ)) = n := by
  have h1 : FP.trunc (n : ℚ) = (n : ℤ) := by
    unfold FP.trunc
    simp
  have h2 : (n : ℤ) < 2 ^ w := by exact_mod_cast h
  unfold toUnsigned
  simp [h1, h2]

theorem rate_eq (T : Target) (ec c : ℕ) (hc : 0 < c) (hec : ec < 2 ^ 32) :
    toUnsigned 32 T.d2u32 (FP.div 53 (FP.ofNat 53 ec) (FP.fin (c : ℚ))) = ec / c := by
  have hcq : (c : ℚ) ≠ 0 := by exact_mod_cast hc.ne'
  have hec53 : ec < 2 ^ 53 := lt_of_lt_of_le hec (by norm_num)
  have hr0 : (0 : ℚ) ≤ roundNE 53 ((ec : ℚ) / c) := roundNE_nonneg 53 (by norm_num) (by positivity)
  have hfl : ⌊roundNE 53 ((ec : ℚ) / c)⌋ = ((ec / c : ℕ) : ℤ) := by
    rw [floor_roundNE_div 53 (by norm_num) _ _ hc hec53, Rat.floor_natCast_div_natCast]
    norm_cast
  have hlt : ((ec / c : ℕ) : ℤ) < 2 ^ 32 := by
    have : ec / c < 2 ^ 32 := lt_of_le_of_lt (Nat.div_le_self _ _) hec
    exact_mod_cast this
  rw [ofNat_exact 53 _ hec53]
  simp only [FP.div, hcq, if_false]
  unfold toUnsigned FP.trunc
  simp only [hr0, if_true, hfl]
  rw [if_pos ⟨Int.natCast_nonneg _, hlt⟩, Int.toNat_natCast]

theorem rate_error_fin (r B : ℕ) (hB : 0 < B) (hB2 : B < 2 ^ 24) (hr : r < 2 ^ 24) :
    FP.sub 24 (FP.div 24 (FP.ofNat 24 r) (FP.ofNat 24 B)) (FP.ofNat 24 1) =
      FP.fin (roundNE 24 (roundNE 24 ((r : ℚ) / B) - 1)) := by
  have hBq : (B : ℚ) ≠ 0 := by exact_mod_cast hB.ne'
  rw [ofNat_exact 24 _ hr, ofNat_exact 24 _ hB2, ofNat_exact 24 1 (by norm_num)]
  simp [FP.div, FP.sub, hBq]

/-- The computed error of a rate at or above the request is the rounded excess. -/
theorem abs_err_of_ge (r B : ℕ) (hB : 0 < B) (hr : B ≤ r) :
    |roundNE 24 (roundNE 24 ((r : ℚ) / B) - 1)| = roundNE 24 (roundNE 24 ((r : ℚ) / B) - 1) ∧
    0 ≤ roundNE 24 ((r : ℚ) / B) - 1 := by
  have hBq : (0 : ℚ) < B := by exact_mod_cast hB
  have h1 : (1 : ℚ) ≤ (r : ℚ) / B := by
    rw [le_div_iff₀ hBq, one_mul]
    exact_mod_cast hr
  have h2 : roundNE 24 ((1 : ℕ) : ℚ) ≤ roundNE 24 ((r : ℚ) / B) :=
    roundNE_mono 24 (by norm_num) (by norm_num) (by simpa using h1)
  rw [roundNE_natCast 24 1 (by norm_num)] at h2
  have h3 : (0 : ℚ) ≤ roundNE 24 ((r : ℚ) / B) - 1 := by
    have : ((1 : ℕ) : ℚ) = 1 := by norm_num
    linarith
  exact ⟨abs_of_nonneg (roundNE_nonneg 24 (by norm_num) h3), h3⟩

/-- The computed error of a rate at or below the request is the rounded shortfall. -/
theorem abs_err_of_le (r B : ℕ) (hB : 0 < B) (hr : r ≤ B) :
    |roundNE 24 (roundNE 24 ((r : ℚ) / B) - 1)| = roundNE 24 (1 - roundNE 24 ((r : ℚ) / B)) ∧
    0 ≤ 1 - roundNE 24 ((r : ℚ) / B) := by
  have hBq : (0 : ℚ) < B := by exact_mod_cast hB
  have h1 : (r : ℚ) / B ≤ 1 := by
    rw [div_le_iff₀ hBq, one_mul]
    exact_mod_cast hr
  have h2 : roundNE 24 ((r : ℚ) / B) ≤ roundNE 24 ((1 : ℕ) : ℚ) :=
    roundNE_mono 24 (by norm_num) (by positivity) (by simpa using h1)
  rw [roundNE_natCast 24 1 (by norm_num)] at h2
  have h3 : (0 : ℚ) ≤ 1 - roundNE 24 ((r : ℚ) / B) := by
    have : ((1 : ℕ) : ℚ) = 1 := by norm_num
    linarith
  have h4 : roundNE 24 ((r : ℚ) / B) - 1 = -(1 - roundNE 24 ((r : ℚ) / B)) := by ring
  rw [h4, roundNE_neg, abs_neg]
  exact ⟨abs_of_nonneg (roundNE_nonneg 24 (by norm_num) h3), h3⟩

/-- The computed relative rates of the two candidates, with their rounding errors: the rate of
the rounded-down divider lies in `[B, 2 B)` and the rate of the rounded-up divider in
`[B / 2, B]`. -/
theorem rate_quotients (D U B : ℕ) (hB : 0 < B) (hU : U ≤ B) (hD : B ≤ D) (hD2 : D < 2 * B)
    (hU2 : B ≤ 2 * U) :
    |roundNE 24 (roundNE 24 ((D : ℚ) / B) - 1)| = roundNE 24 ((D : ℚ) / B) - 1 ∧
    |roundNE 24 (roundNE 24 ((U : ℚ) / B) - 1)| = 1 - roundNE 24 ((U : ℚ) / B) ∧
    |roundNE 24 ((D : ℚ) / B) - (D : ℚ) / B| ≤ 1 / 2 ^ 24 ∧
    |roundNE 24 ((U : ℚ) / B) - (U : ℚ) / B| ≤ 1 / 2 ^ 25 := by
  have hBq : (0 : ℚ) < B := by exact_mod_cast hB
  have hu1 : (1 : ℚ) ≤ (D : ℚ) / B := by
    rw [le_div_iff₀ hBq, one_mul]
    exact_mod_cast hD
  have hu2 : (D : ℚ) / B < 2 := by
    rw [div_lt_iff₀ hBq]
    exact_mod_cast hD2
  have hv1 : (1 : ℚ) / 2 ≤ (U : ℚ) / B := by
    rw [le_div_iff₀ hBq]
    have : (B : ℚ) ≤ 2 * U := by exact_mod_cast hU2
    linarith
  have hv2 : (U : ℚ) / B ≤ 1 := by
    rw [div_le_iff₀ hBq, one_mul]
    exact_mod_cast hU
  obtain ⟨hd1, -⟩ := abs_err_of_ge D B hB hD
  obtain ⟨hue1, -⟩ := abs_err_of_le U B hB hU
  refine ⟨?_, ?_, ?_, ?_⟩
  · rw [hd1, sub_one_exact _ hu1 hu2]
  · rw [hue1, one_sub_exact _ hv1 hv2]
  · have := roundNE_abs_err 24 ((D : ℚ) / B) (by linarith) 0 (by simpa using hu1)
      (by simpa using hu2)
    simpa using this
  · rcases hv2.lt_or_eq with hlt | heq
    · have := roundNE_abs_err 24 ((U : ℚ) / B) (by linarith) (-1) (by norm_num; linarith)
        (by simpa using hlt)
      have e : (2 : ℚ) ^ (-1 : ℤ) / 2 ^ 24 = 1 / 2 ^ 25 := by norm_num
      rwa [e] at this
    · have h1 : roundNE 24 ((U : ℚ) / B) = 1 := by
        rw [heq]
        have := roundNE_natCast 24 1 (by norm_num)
        simpa using this
      rw [h1, heq]
      norm_num

/-- When the test of line 63 succeeds, the rounded-down divider's rate is at least as close to the
request as the rounded-up divider's. -/
theorem select_down_sound (D U B : ℕ) (hB : 0 < B) (hB2 : 3 * B < 2 ^ 25) (hU : U ≤ B)
    (hD : B ≤ D) (hD2 : D < 2 * B) (hU2 : B ≤ 2 * U)
    (h : |roundNE 24 (roundNE 24 ((D : ℚ) / B) - 1)| < |roundNE 24 (roundNE 24 ((U : ℚ) / B) - 1)|) :
    D + U ≤ 2 * B := by
  by_contra hcon
  push_neg at hcon
  obtain ⟨a1, a2, a3, a4⟩ := rate_quotients D U B hB hU hD hD2 hU2
  rw [a1, a2] at h
  have hBq : (0 : ℚ) < B := by exact_mod_cast hB
  have hsum : (2 : ℚ) + 1 / B ≤ (D : ℚ) / B + (U : ℚ) / B := by
    rw [← add_div, ← sub_nonneg]
    have h1 : (2 : ℚ) * B + 1 ≤ (D : ℚ) + U := by exact_mod_cast hcon
    have h2 : ((D : ℚ) + U) / B - (2 + 1 / B) = ((D : ℚ) + U - (2 * B + 1)) / B := by
      field_simp
    rw [h2]
    exact div_nonneg (by linarith) hBq.le
  have hinv : (3 : ℚ) / 2 ^ 25 < 1 / B := by
    rw [div_lt_div_iff₀ (by positivity) hBq]
    have : (3 : ℚ) * B < 2 ^ 25 := by exact_mod_cast hB2
    linarith
  have b3 := (abs_le.mp a3).1
  have b4 := (abs_le.mp a4).1
  have h24 : (2 : ℚ) ^ 24 = 16777216 := by norm_num
  have h25 : (2 : ℚ) ^ 25 = 33554432 := by norm_num
  rw [h24] at b3
  rw [h25] at b4 hinv
  generalize roundNE 24 ((D : ℚ) / B) = xd at *
  generalize roundNE 24 ((U : ℚ) / B) = xu at *
  generalize (D : ℚ) / B = u at *
  generalize (U : ℚ) / B = v at *
  generalize (1 : ℚ) / B = t at *
  linarith

/-- When the test of line 63 fails, the rounded-up divider's rate is at least as close to the
request as the rounded-down divider's. -/
theorem select_up_sound (D U B : ℕ) (hB : 0 < B) (hB2 : 3 * B < 2 ^ 25) (hU : U ≤ B)
    (hD : B ≤ D) (hD2 : D < 2 * B) (hU2 : B ≤ 2 * U)
    (h : ¬ |roundNE 24 (roundNE 24 ((D : ℚ) / B) - 1)| <
      |roundNE 24 (roundNE 24 ((U : ℚ) / B) - 1)|) :
    2 * B ≤ D + U := by
  by_contra hcon
  push_neg at hcon
  apply h
  obtain ⟨a1, a2, a3, a4⟩ := rate_quotients D U B hB hU hD hD2 hU2
  rw [a1, a2]
  have hBq : (0 : ℚ) < B := by exact_mod_cast hB
  have hsum : (D : ℚ) / B + (U : ℚ) / B ≤ 2 - 1 / B := by
    rw [← add_div, ← sub_nonneg]
    have h1 : (D : ℚ) + U + 1 ≤ 2 * B := by exact_mod_cast hcon
    have h2 : (2 : ℚ) - 1 / B - ((D : ℚ) + U) / B = (2 * B - ((D : ℚ) + U + 1)) / B := by
      field_simp
      ring
    rw [h2]
    exact div_nonneg (by linarith) hBq.le
  have hinv : (3 : ℚ) / 2 ^ 25 < 1 / B := by
    rw [div_lt_div_iff₀ (by positivity) hBq]
    have : (3 : ℚ) * B < 2 ^ 25 := by exact_mod_cast hB2
    linarith
  have b3 := (abs_le.mp a3).2
  have b4 := (abs_le.mp a4).2
  have h24 : (2 : ℚ) ^ 24 = 16777216 := by norm_num
  have h25 : (2 : ℚ) ^ 25 = 33554432 := by norm_num
  rw [h24] at b3
  rw [h25] at b4 hinv
  generalize roundNE 24 ((D : ℚ) / B) = xd at *
  generalize roundNE 24 ((U : ℚ) / B) = xu at *
  generalize (D : ℚ) / B = u at *
  generalize (U : ℚ) / B = v at *
  generalize (1 : ℚ) / B = t at *
  linarith

/-- Facts about the two candidates `ec / B` and `⌈ec / B⌉` and their integer rates. -/
theorem candidates (ec B : ℕ) (h1 : 1 ≤ B) (h2 : B ≤ ec) (h4 : ec ≤ 65535 * B) :
    1 ≤ ec / B ∧ ec / B ≤ ⌈(ec : ℚ) / (B : ℚ)⌉₊ ∧ ⌈(ec : ℚ) / (B : ℚ)⌉₊ ≤ 65535 ∧
    B ≤ ec / (ec / B) ∧ ec / ⌈(ec : ℚ) / (B : ℚ)⌉₊ ≤ B := by
  have hBq : (0 : ℚ) < B := by exact_mod_cast h1
  have hdn : 1 ≤ ec / B := Nat.div_pos h2 h1
  have hle : ec / B ≤ ⌈(ec : ℚ) / (B : ℚ)⌉₊ := by
    rw [← Nat.floor_div_eq_div (α := ℚ)]
    exact Nat.floor_le_ceil _
  have hcu : ⌈(ec : ℚ) / (B : ℚ)⌉₊ ≤ 65535 := by
    rw [Nat.ceil_le, div_le_iff₀ hBq]
    exact_mod_cast h4
  have hmul : ec ≤ ⌈(ec : ℚ) / (B : ℚ)⌉₊ * B := by
    have := Nat.le_ceil ((ec : ℚ) / (B : ℚ))
    rw [div_le_iff₀ hBq] at this
    exact_mod_cast this
  refine ⟨hdn, hle, hcu, ?_, ?_⟩
  · rw [Nat.le_div_iff_mul_le hdn]
    exact Nat.mul_div_le ec B
  · exact Nat.div_le_of_le_mul hmul

/-- The integer rates of the two candidates stay within a factor 2 of the request. -/
theorem candidate_rates (ec B : ℕ) (h1 : 1 ≤ B) (h2 : B ≤ ec)
    (hne : ec / B ≠ ⌈(ec : ℚ) / (B : ℚ)⌉₊) :
    ec / (ec / B) < 2 * B ∧ B ≤ 2 * (ec / ⌈(ec : ℚ) / (B : ℚ)⌉₊) := by
  have hBq : (0 : ℚ) < B := by exact_mod_cast h1
  have hd : 1 ≤ ec / B := Nat.div_pos h2 h1
  have hle : ec / B ≤ ⌈(ec : ℚ) / (B : ℚ)⌉₊ := by
    rw [← Nat.floor_div_eq_div (α := ℚ)]
    exact Nat.floor_le_ceil _
  have hlt : ec / B < ⌈(ec : ℚ) / (B : ℚ)⌉₊ := lt_of_le_of_ne hle hne
  have hc : ⌈(ec : ℚ) / (B : ℚ)⌉₊ = ec / B + 1 := by
    have hup : ⌈(ec : ℚ) / (B : ℚ)⌉₊ ≤ ec / B + 1 := by
      rw [← Nat.floor_div_eq_div (α := ℚ)]
      exact Nat.ceil_le_floor_add_one _
    omega
  have hstrict : ec / B * B < ec := by
    have := Nat.lt_ceil.mp hlt
    rw [lt_div_iff₀ hBq] at this
    exact_mod_cast this
  have hub : ec < (ec / B + 1) * B := by
    rw [← Nat.div_lt_iff_lt_mul h1]
    omega
  constructor
  · have e1 : ec / (ec / B) * (ec / B) ≤ ec := Nat.div_mul_le_self ec (ec / B)
    have e2 : (ec / B + 1) * B ≤ 2 * B * (ec / B) := by
      have : (ec / B + 1) * B = ec / B * B + B := by ring
      have h3 : B ≤ ec / B * B := Nat.le_mul_of_pos_left B hd
      have h4 : 2 * B * (ec / B) = ec / B * B + ec / B * B := by ring
      omega
    have e3 : ec / (ec / B) * (ec / B) < 2 * B * (ec / B) := by omega
    exact Nat.lt_of_mul_lt_mul_right e3
  · rw [hc]
    by_contra hcon
    push_neg at hcon
    have f1 : ec < (ec / B + 1) * (ec / (ec / B + 1) + 1) :=
      Nat.lt_mul_div_succ ec (by omega)
    have f2 : ec / B * (2 * (ec / (ec / B + 1)) + 1) ≤ ec / B * B :=
      Nat.mul_le_mul_left _ (by omega)
    have f3 : ec / (ec / B + 1) ≤ ec / B * (ec / (ec / B + 1)) :=
      Nat.le_mul_of_pos_left _ hd
    have g1 : ec / B * (2 * (ec / (ec / B + 1)) + 1) =
        2 * (ec / B * (ec / (ec / B + 1))) + ec / B := by ring
    have g2 : (ec / B + 1) * (ec / (ec / B + 1) + 1) =
        ec / B * (ec / (ec / B + 1)) + ec / B + ec / (ec / B + 1) + 1 := by ring
    omega

/-- Within range the two computed errors of lines 59-60 are finite: each is the single-precision
difference of the single-precision quotient of the integer rate by the request, and one. -/
theorem computed_errors (T : Target) (bus B : ℕ) (h1 : 1 ≤ B) (h2 : B ≤ bus / 8)
    (h3 : bus / 8 < 2 ^ 24) (h4 : bus / 8 ≤ 65535 * B) :
    down_rate_error T bus B =
      FP.fin (roundNE 24 (roundNE 24 (((bus / 8 / (bus / 8 / B) : ℕ) : ℚ) / B) - 1)) ∧
    up_rate_error T bus B =
      FP.fin (roundNE 24
        (roundNE 24 (((bus / 8 / ⌈((bus / 8 : ℕ) : ℚ) / (B : ℚ)⌉₊ : ℕ) : ℚ) / B) - 1)) := by
  obtain ⟨c1, c2, c3, c4, c5⟩ := candidates (bus / 8) B h1 h2 h4
  have hB2 : B < 2 ^ 24 := lt_of_le_of_lt h2 h3
  have hec32 : bus / 8 < 2 ^ 32 := lt_of_lt_of_le h3 (by norm_num)
  have hD : bus / 8 / (bus / 8 / B) < 2 ^ 24 := lt_of_le_of_lt (Nat.div_le_self _ _) h3
  have hU : bus / 8 / ⌈((bus / 8 : ℕ) : ℚ) / (B : ℚ)⌉₊ < 2 ^ 24 :=
    lt_of_le_of_lt (Nat.div_le_self _ _) h3
  unfold down_rate_error up_rate_error down_rate up_rate
  rw [floor_divider bus B h1 hB2 h3, ceil_divider bus B h1 hB2 h3,
    rate_eq T _ _ c1 hec32, rate_eq T _ _ (lt_of_lt_of_le c1 c2) hec32,
    rate_error_fin _ B h1 hB2 hD, rate_error_fin _ B h1 hB2 hU]
  exact ⟨rfl, rfl⟩

theorem down_selected_eq (T : Target) (bus B : ℕ) (h1 : 1 ≤ B) (h2 : B ≤ bus / 8)
    (h3 : bus / 8 < 2 ^ 24) (h4 : bus / 8 ≤ 65535 * B) :
    down_selected T bus B = decide
      (|roundNE 24 (roundNE 24 (((bus / 8 / (bus / 8 / B) : ℕ) : ℚ) / B) - 1)| <
       |roundNE 24 (roundNE 24 (((bus / 8 / ⌈((bus / 8 : ℕ) : ℚ) / (B : ℚ)⌉₊ : ℕ) : ℚ) / B) - 1)|)
    := by
  obtain ⟨c1, c2, c3, c4, c5⟩ := candidates (bus / 8) B h1 h2 h4
  have hB2 : B < 2 ^ 24 := lt_of_le_of_lt h2 h3
  have hec32 : bus / 8 < 2 ^ 32 := lt_of_lt_of_le h3 (by norm_num)
  have hD : bus / 8 / (bus / 8 / B) < 2 ^ 24 := lt_of_le_of_lt (Nat.div_le_self _ _) h3
  have hU : bus / 8 / ⌈((bus / 8 : ℕ) : ℚ) / (B : ℚ)⌉₊ < 2 ^ 24 :=
    lt_of_le_of_lt (Nat.div_le_self _ _) h3
  unfold down_selected down_rate_error up_rate_error down_rate up_rate
  rw [floor_divider bus B h1 hB2 h3, ceil_divider bus B h1 hB2 h3,
    rate_eq T _ _ c1 hec32, rate_eq T _ _ (lt_of_lt_of_le c1 c2) hec32,
    rate_error_fin _ B h1 hB2 hD, rate_error_fin _ B h1 hB2 hU]
  simp only [FP.fabs, FP.lt]

theorem divider_selected_eq (T : Target) (bus B : ℕ) (h1 : 1 ≤ B) (h2 : B ≤ bus / 8)
    (h3 : bus / 8 < 2 ^ 24) (h4 : bus / 8 ≤ 65535 * B) :
    divider_selected T bus B =
      if down_selected T bus B then bus / 8 / B else ⌈((bus / 8 : ℕ) : ℚ) / (B : ℚ)⌉₊ := by
  obtain ⟨c1, c2, c3, c4, c5⟩ := candidates (bus / 8) B h1 h2 h4
  have hB2 : B < 2 ^ 24 := lt_of_le_of_lt h2 h3
  unfold divider_selected
  rw [floor_divider bus B h1 hB2 h3, ceil_divider bus B h1 hB2 h3,
    toUnsigned_natCast 16 _ _ (by omega), toUnsigned_natCast 16 _ _ (by omega)]

theorem rate_error_down (ec B : ℕ) (h1 : 1 ≤ B) (hD : B ≤ ec / (ec / B)) :
    rate_error ec B (ec / B) = ((ec / (ec / B) : ℕ) : ℚ) / B - 1 := by
  have hBq : (0 : ℚ) < B := by exact_mod_cast h1
  unfold rate_error
  apply abs_of_nonneg
  rw [sub_nonneg, le_div_iff₀ hBq, one_mul]
  exact_mod_cast hD

theorem rate_error_up (ec B c : ℕ) (h1 : 1 ≤ B) (hU : ec / c ≤ B) :
    rate_error ec B c = 1 - ((ec / c : ℕ) : ℚ) / B := by
  have hBq : (0 : ℚ) < B := by exact_mod_cast h1
  unfold rate_error
  rw [abs_sub_comm]
  apply abs_of_nonneg
  rw [sub_nonneg, div_le_iff₀ hBq, one_mul]
  exact_mod_cast hU

/-- Each computed error is the exact error of its candidate (with the integer rate) up to one
rounding of the quotient: within `2 ^ -24` for the floor candidate, `2 ^ -25` for the ceiling. -/
theorem computed_errors_close (ec B : ℕ) (h1 : 1 ≤ B) (h2 : B ≤ ec) (h4 : ec ≤ 65535 * B) :
    |(|roundNE 24 (roundNE 24 (((ec / (ec / B) : ℕ) : ℚ) / B) - 1)|) -
      rate_error ec B (ec / B)| ≤ 1 / 2 ^ 24 ∧
    |(|roundNE 24 (roundNE 24 (((ec / ⌈(ec : ℚ) / (B : ℚ)⌉₊ : ℕ) : ℚ) / B) - 1)|) -
      rate_error ec B ⌈(ec : ℚ) / (B : ℚ)⌉₊| ≤ 1 / 2 ^ 25 := by
  obtain ⟨c1, c2, c3, c4, c5⟩ := candidates ec B h1 h2 h4
  have hr : ec / (ec / B) < 2 * B ∧ B ≤ 2 * (ec / ⌈(ec : ℚ) / (B : ℚ)⌉₊) := by
    by_cases hne : ec / B = ⌈(ec : ℚ) / (B : ℚ)⌉₊
    · have hDU : ec / (ec / B) = ec / ⌈(ec : ℚ) / (B : ℚ)⌉₊ := congrArg (fun c => ec / c) hne
      omega
    · exact candidate_rates ec B h1 h2 hne
  obtain ⟨a1, a2, a3, a4⟩ := rate_quotients _ _ B h1 c5 c4 hr.1 hr.2
  rw [a1, a2, rate_error_down ec B h1 c4, rate_error_up ec B _ h1 c5]
  constructor
  · have e : roundNE 24 (((ec / (ec / B) : ℕ) : ℚ) / B) - 1 - (((ec / (ec / B) : ℕ) : ℚ) / B - 1) =
        roundNE 24 (((ec / (ec / B) : ℕ) : ℚ) / B) - ((ec / (ec / B) : ℕ) : ℚ) / B := by ring
    rw [e]
    exact a3
  · have e : 1 - roundNE 24 (((ec / ⌈(ec : ℚ) / (B : ℚ)⌉₊ : ℕ) : ℚ) / B) -
        (1 - ((ec / ⌈(ec : ℚ) / (B : ℚ)⌉₊ : ℕ) : ℚ) / B) =
        -(roundNE 24 (((ec / ⌈(ec : ℚ) / (B : ℚ)⌉₊ : ℕ) : ℚ) / B) -
          ((ec / ⌈(ec : ℚ) / (B : ℚ)⌉₊ : ℕ) : ℚ) / B) := by ring
    rw [e, abs_neg]
    exact a4

/-- Within range the selected divider is one of the two candidates and its integer rate is at
least as close to the request as the other candidate's. -/
theorem divider_selected_minimal (T : Target) (bus B : ℕ) (h1 : 1 ≤ B) (h2 : B ≤ bus / 8)
    (h3 : bus / 8 < 2 ^ 24) (h4 : bus / 8 ≤ 65535 * B) (h5 : 3 * B < 2 ^ 25) :
    (divider_selected T bus B = ⌊((bus / 8 : ℕ) : ℚ) / (B : ℚ)⌋₊ ∨
      divider_selected T bus B = ⌈((bus / 8 : ℕ) : ℚ) / (B : ℚ)⌉₊) ∧
    rate_error (bus / 8) B (divider_selected T bus B) ≤
      rate_error (bus / 8) B ⌊((bus / 8 : ℕ) : ℚ) / (B : ℚ)⌋₊ ∧
    rate_error (bus / 8) B (divider_selected T bus B) ≤
      rate_error (bus / 8) B ⌈((bus / 8 : ℕ) : ℚ) / (B : ℚ)⌉₊ := by
  obtain ⟨c1, c2, c3, c4, c5⟩ := candidates (bus / 8) B h1 h2 h4
  have hBq : (0 : ℚ) < B := by exact_mod_cast h1
  rw [Nat.floor_div_eq_div, divider_selected_eq T bus B h1 h2 h3 h4]
  by_cases hex : bus / 8 / B = ⌈((bus / 8 : ℕ) : ℚ) / (B : ℚ)⌉₊
  · -- the ideal divider is an integer: both candidates coincide
    rw [← hex, ite_self]
    exact ⟨Or.inl rfl, le_refl _, le_refl _⟩
  obtain ⟨c6, c7⟩ := candidate_rates (bus / 8) B h1 h2 hex
  have hsel := down_selected_eq T bus B h1 h2 h3 h4
  have ed := rate_error_down (bus / 8) B h1 c4
  have eu := rate_error_up (bus / 8) B _ h1 c5
  cases hds : down_selected T bus B with
  | true =>
    rw [hds] at hsel
    have hlt := of_decide_eq_true hsel.symm
    have hsum := select_down_sound _ _ B h1 h5 c5 c4 c6 c7 hlt
    have hsumq : ((bus / 8 / (bus / 8 / B) : ℕ) : ℚ) +
        ((bus / 8 / ⌈((bus / 8 : ℕ) : ℚ) / (B : ℚ)⌉₊ : ℕ) : ℚ) ≤ 2 * B := by
      exact_mod_cast hsum
    rw [if_pos rfl]
    refine ⟨Or.inl rfl, le_refl _, ?_⟩
    rw [ed, eu, sub_le_sub_iff, ← add_div, div_le_iff₀ hBq]
    linarith
  | false =>
    rw [hds] at hsel
    have hnlt := of_decide_eq_false hsel.symm
    have hsum := select_up_sound _ _ B h1 h5 c5 c4 c6 c7 hnlt
    have hsumq : (2 : ℚ) * B ≤ ((bus / 8 / (bus / 8 / B) : ℕ) : ℚ) +
        ((bus / 8 / ⌈((bus / 8 : ℕ) : ℚ) / (B : ℚ)⌉₊ : ℕ) : ℚ) := by
      exact_mod_cast hsum
    rw [if_neg Bool.false_ne_true]
    refine ⟨Or.inr rfl, ?_, le_refl _⟩
    rw [ed, eu, sub_le_sub_iff, ← add_div, le_div_iff₀ hBq]
    linarith

theorem toUnsigned_lt (w : ℕ) (oor : FP → ℕ) (x : FP) : toUnsigned w oor x < 2 ^ w := by
  have hpos : 0 < 2 ^ w := by positivity
  cases x with
  | fin q =>
    simp only [toUnsigned]
    split_ifs with h
    · have : ((FP.trunc q).toNat : ℤ) < ((2 ^ w : ℕ) : ℤ) := by
        rw [Int.toNat_of_nonneg h.1]
        exact_mod_cast h.2
      exact_mod_cast this
    · exact Nat.mod_lt _ hpos
  | inf s => exact Nat.mod_lt _ hpos
  | nan => exact Nat.mod_lt _ hpos

theorem divider_selected_lt (T : Target) (bus B : ℕ) : divider_selected T bus B < 2 ^ 16 := by
  unfold divider_selected
  split_ifs
  · exact toUnsigned_lt 16 _ _
  · exact toUnsigned_lt 16 _ _

theorem zero_baud_values (T : Target) (bus : ℕ) (hbus : 8 ≤ bus) :
    divider bus 0 = FP.inf false ∧ down_rate_error T bus 0 = FP.nan ∧
      up_rate_error T bus 0 = FP.nan := by
  have hec : 0 < bus / 8 := Nat.div_pos hbus (by norm_num)
  have hecq : (0 : ℚ) < ((bus / 8 : ℕ) : ℚ) := by exact_mod_cast hec
  have hr : 0 < roundNE 24 ((bus / 8 : ℕ) : ℚ) := by
    rw [roundNE_of_pos 24 hecq]
    exact rnd_pos 24 (by norm_num) _ hecq
  have hdiv : divider bus 0 = FP.inf false := by
    unfold divider FP.ofNat
    simp [FP.div, roundNE_zero, hr.ne', not_lt.mpr hr.le]
  have hrate : ∀ p : ℕ, toUnsigned 32 T.d2u32
      (FP.div p (FP.ofNat p (bus / 8)) (FP.inf false)) = 0 := by
    intro p
    simp [FP.ofNat, FP.div, toUnsigned, FP.trunc]
  have herr : FP.sub 24 (FP.div 24 (FP.ofNat 24 0) (FP.ofNat 24 0)) (FP.ofNat 24 1) = FP.nan := by
    simp [FP.ofNat, FP.div, FP.sub, roundNE_zero]
  refine ⟨hdiv, ?_, ?_⟩
  · unfold down_rate_error down_rate
    rw [hdiv]
    simp only [FP.floor, hrate, herr]
  · unfold up_rate_error up_rate
    rw [hdiv]
    simp only [FP.ceil, hrate, herr]

theorem divider_selected_zero_baud (T : Target) (bus : ℕ) (hbus : 8 ≤ bus) :
    divider_selected T bus 0 = T.d2u16 (FP.inf false) % 2 ^ 16 := by
  obtain ⟨hdiv, hd, hu⟩ := zero_baud_values T bus hbus
  unfold divider_selected down_selected
  rw [hdiv, hd, hu]
  simp [FP.fabs, FP.lt, FP.ceil, toUnsigned]

/-! ## Requests above the effective clock on the Cortex-M3 target -/

/-- The conversion of an unsigned integer to floating point is again an integer. -/
theorem roundNE_nat_isNat (p : ℕ) (n : ℕ) : ∃ m : ℕ, roundNE p (n : ℚ) = (m : ℚ) := by
  rcases Nat.eq_zero_or_pos n with h0 | hpos
  · exact ⟨0, by simp [h0, roundNE_zero]⟩
  have hx : (0 : ℚ) < (n : ℚ) := by exact_mod_cast hpos
  rcases lt_or_le n (2 ^ p) with hlt | hge
  · exact ⟨n, roundNE_natCast p n hlt⟩
  have hE : (p : ℤ) ≤ expo (n : ℚ) := by
    by_contra hcon
    push_neg at hcon
    have h1 := (expo_spec (n : ℚ) hx).2
    have h2 : (2 : ℚ) ^ (expo (n : ℚ) + 1) ≤ 2 ^ (p : ℤ) :=
      zpow_le_zpow_right₀ (by norm_num) (by omega)
    have h3 : (2 : ℚ) ^ (p : ℤ) ≤ (n : ℚ) := by
      rw [zpow_natCast]
      exact_mod_cast hge
    linarith
  obtain ⟨k, hk⟩ : ∃ k : ℕ, expo (n : ℚ) - ((p : ℤ) - 1) = (k : ℤ) :=
    ⟨(expo (n : ℚ) - ((p : ℤ) - 1)).toNat, by omega⟩
  have hy : (0 : ℚ) ≤ (n : ℚ) / 2 ^ (expo (n : ℚ) - ((p : ℤ) - 1)) := by positivity
  have hr : 0 ≤ rne ((n : ℚ) / 2 ^ (expo (n : ℚ) - ((p : ℤ) - 1))) :=
    le_trans (Int.floor_nonneg.mpr hy) (rne_floor_le _)
  obtain ⟨j, hj⟩ := Int.eq_ofNat_of_zero_le hr
  refine ⟨j * 2 ^ k, ?_⟩
  rw [roundNE_of_pos p hx]
  unfold rnd
  rw [hj, hk, zpow_natCast]
  push_cast
  ring

theorem divider_above_clock (bus B : ℕ) (hbus : 8 ≤ bus) (h3 : bus / 8 < 2 ^ 24)
    (hB : bus / 8 < B) :
    FP.floor (divider bus B) = FP.fin 0 ∧ FP.ceil (divider bus B) = FP.fin 1 ∧
    ∃ m : ℕ, FP.ofNat 24 B = FP.fin (m : ℚ) ∧ bus / 8 < m ∧ (B ≤ 2 ^ 31 → m ≤ 2 ^ 31) := by
  have hec : 0 < bus / 8 := Nat.div_pos hbus (by norm_num)
  obtain ⟨m, hm⟩ := roundNE_nat_isNat 24 B
  have hBq : (0 : ℚ) ≤ (B : ℚ) := by positivity
  have hmgt : bus / 8 < m := by
    rcases lt_or_le B (2 ^ 24) with hlt | hge
    · have := roundNE_natCast 24 B hlt
      rw [hm] at this
      have : m = B := by exact_mod_cast this
      omega
    · have h1 : roundNE 24 ((2 ^ 24 : ℕ) : ℚ) ≤ roundNE 24 (B : ℚ) :=
        roundNE_mono 24 (by norm_num) (by positivity) (by exact_mod_cast hge)
      have h2 : roundNE 24 ((2 ^ 24 : ℕ) : ℚ) = ((2 ^ 24 : ℕ) : ℚ) := by decide!
      rw [h2, hm] at h1
      have : 2 ^ 24 ≤ m := by exact_mod_cast h1
      omega
  have hmle : B ≤ 2 ^ 31 → m ≤ 2 ^ 31 := by
    intro hB31
    have h1 : roundNE 24 (B : ℚ) ≤ roundNE 24 ((2 ^ 31 : ℕ) : ℚ) :=
      roundNE_mono 24 (by norm_num) hBq (by exact_mod_cast hB31)
    have h2 : roundNE 24 ((2 ^ 31 : ℕ) : ℚ) = ((2 ^ 31 : ℕ) : ℚ) := by decide!
    rw [h2, hm] at h1
    exact_mod_cast h1
  have hm0 : 0 < m := by omega
  have hmq : (m : ℚ) ≠ 0 := by exact_mod_cast hm0.ne'
  have hmpos : (0 : ℚ) < (m : ℚ) := by exact_mod_cast hm0
  have hofB : FP.ofNat 24 B = FP.fin (m : ℚ) := by
    unfold FP.ofNat
    rw [hm]
  have hdiv : divider bus B = FP.fin (roundNE 24 (((bus / 8 : ℕ) : ℚ) / (m : ℚ))) := by
    unfold divider
    rw [ofNat_exact 24 _ h3, hofB]
    simp [FP.div, hmq]
  have hq1 : ((bus / 8 : ℕ) : ℚ) / (m : ℚ) < 1 := by
    rw [div_lt_one hmpos]
    exact_mod_cast hmgt
  have hq0 : (0 : ℚ) < ((bus / 8 : ℕ) : ℚ) / (m : ℚ) := by
    apply div_pos _ hmpos
    exact_mod_cast hec
  refine ⟨?_, ?_, m, hofB, hmgt, hmle⟩
  · rw [hdiv]
    simp only [FP.floor]
    rw [floor_roundNE_div 24 (by norm_num) _ _ hm0 h3]
    have : ⌊((bus / 8 : ℕ) : ℚ) / (m : ℚ)⌋ = 0 := by
      rw [Int.floor_eq_iff]
      exact ⟨by simpa using hq0.le, by simpa using hq1⟩
    rw [this]
    norm_num
  · rw [hdiv]
    simp only [FP.ceil]
    rw [ceil_roundNE_div 24 (by norm_num) _ _ hm0 h3]
    have : ⌈((bus / 8 : ℕ) : ℚ) / (m : ℚ)⌉ = 1 := by
      rw [Int.ceil_eq_iff]
      exact ⟨by simpa using hq0, by simpa using hq1.le⟩
    rw [this]
    norm_num

/-- On the Cortex-M3 target a request above the effective clock and up to `2 ^ 31` selects the
divider 1: the saturated rate of the zero candidate is at least twice the request. -/
theorem divider_selected_above_clock (bus B : ℕ) (hbus : 8 ≤ bus) (h3 : bus / 8 < 2 ^ 24)
    (hB : bus / 8 < B) (hB31 : B ≤ 2 ^ 31) : divider_selected cortexM3 bus B = 1 := by
  have hec : 0 < bus / 8 := Nat.div_pos hbus (by norm_num)
  have hecq : ((bus / 8 : ℕ) : ℚ) ≠ 0 := by exact_mod_cast hec.ne'
  have hecpos : (0 : ℚ) < ((bus / 8 : ℕ) : ℚ) := by exact_mod_cast hec
  obtain ⟨hfl, hce, m, hofB, hmgt, hmle⟩ := divider_above_clock bus B hbus h3 hB
  have hm31 := hmle hB31
  have hm0 : 0 < m := by omega
  have hmq : (m : ℚ) ≠ 0 := by exact_mod_cast hm0.ne'
  have hmpos : (0 : ℚ) < (m : ℚ) := by exact_mod_cast hm0
  have hec53 : bus / 8 < 2 ^ 53 := lt_of_lt_of_le h3 (by norm_num)
  -- the two rates
  have hdown : down_rate cortexM3 bus B = 2 ^ 32 - 1 := by
    unfold down_rate
    rw [hfl, ofNat_exact 53 _ hec53]
    simp [FP.div, hecq, not_lt.mpr hecpos.le, toUnsigned, cortexM3, d2uiz]
  have hup : up_rate cortexM3 bus B = bus / 8 := by
    unfold up_rate
    rw [hce]
    have := rate_eq cortexM3 (bus / 8) 1 (by norm_num) (lt_of_lt_of_le h3 (by norm_num))
    simpa using this
  -- the two computed errors
  have h232 : FP.ofNat 24 (2 ^ 32 - 1) = FP.fin ((2 ^ 32 : ℕ) : ℚ) := by decide!
  have hderr : down_rate_error cortexM3 bus B =
      FP.fin (roundNE 24 (roundNE 24 (((2 ^ 32 : ℕ) : ℚ) / (m : ℚ)) - 1)) := by
    unfold down_rate_error
    rw [hdown, h232, hofB, ofNat_exact 24 1 (by norm_num)]
    simp [FP.div, FP.sub, hmq]
  have huerr : up_rate_error cortexM3 bus B =
      FP.fin (roundNE 24 (roundNE 24 (((bus / 8 : ℕ) : ℚ) / (m : ℚ)) - 1)) := by
    unfold up_rate_error
    rw [hup, ofNat_exact 24 _ h3, hofB, ofNat_exact 24 1 (by norm_num)]
    simp [FP.div, FP.sub, hmq]
  have hone : roundNE 24 ((1 : ℕ) : ℚ) = 1 := by
    rw [roundNE_natCast 24 1 (by norm_num)]
    norm_num
  have htwo : roundNE 24 ((2 : ℕ) : ℚ) = 2 := by
    rw [roundNE_natCast 24 2 (by norm_num)]
    norm_num
  -- the zero candidate's error is at least 1
  have hd1 : (1 : ℚ) ≤ |roundNE 24 (roundNE 24 (((2 ^ 32 : ℕ) : ℚ) / (m : ℚ)) - 1)| := by
    have hq : ((2 : ℕ) : ℚ) ≤ ((2 ^ 32 : ℕ) : ℚ) / (m : ℚ) := by
      rw [le_div_iff₀ hmpos]
      have : 2 * m ≤ 2 ^ 32 := by omega
      exact_mod_cast this
    have h1 := roundNE_mono 24 (by norm_num) (by positivity) hq
    rw [htwo] at h1
    have h2 : ((1 : ℕ) : ℚ) ≤ roundNE 24 (((2 ^ 32 : ℕ) : ℚ) / (m : ℚ)) - 1 := by
      push_cast
      linarith
    have h3 := roundNE_mono 24 (by norm_num) (by positivity) h2
    rw [hone] at h3
    exact le_trans h3 (le_abs_self _)
  -- the candidate 1 has an error of at most 1
  have hu1 : |roundNE 24 (roundNE 24 (((bus / 8 : ℕ) : ℚ) / (m : ℚ)) - 1)| ≤ 1 := by
    obtain ⟨e1, e2⟩ := abs_err_of_le (bus / 8) m hm0 (by omega)
    rw [e1]
    have hx0 : (0 : ℚ) ≤ roundNE 24 (((bus / 8 : ℕ) : ℚ) / (m : ℚ)) :=
      roundNE_nonneg 24 (by norm_num) (by positivity)
    have h2 : 1 - roundNE 24 (((bus / 8 : ℕ) : ℚ) / (m : ℚ)) ≤ ((1 : ℕ) : ℚ) := by
      push_cast
      linarith
    have h3 := roundNE_mono 24 (by norm_num) e2 h2
    rwa [hone] at h3
  have hsel : down_selected cortexM3 bus B = false := by
    unfold down_selected
    rw [hderr, huerr]
    simp only [FP.fabs, FP.lt, decide_eq_false_iff_not, not_lt]
    exact le_trans hu1 hd1
  unfold divider_selected
  rw [hsel, hce]
  have := toUnsigned_natCast 16 cortexM3.d2u16 1 (by norm_num)
  simpa using this
/-- C1 (as stated, refuted). With a 24 MHz bus clock (effective clock 3,000,000) and a request
of 1 baud both candidates are 3,000,000, which no `uint16_t` holds: whatever the target, the
divider committed is not a candidate. And at 9600 baud the committed divider 312 has a strictly
larger error than 313 when the achievable rate is taken real-valued. -/
theorem C1_refuted :
    (⌊((24000000 / 8 : ℕ) : ℚ) / ((1 : ℕ) : ℚ)⌋₊ = 3000000 ∧
      ⌈((24000000 / 8 : ℕ) : ℚ) / ((1 : ℕ) : ℚ)⌉₊ = 3000000 ∧
      ∀ T : Target, Op.UART_CLK_SetDividerValue 3000000 ∉ uart_baudrate T 24000000 1) ∧
    (Op.UART_CLK_SetDividerValue 312 ∈ uart_baudrate cortexM3 24000000 9600 ∧
      ⌈((24000000 / 8 : ℕ) : ℚ) / ((9600 : ℕ) : ℚ)⌉₊ = 313 ∧
      exact_rate_error (24000000 / 8) 9600 313 < exact_rate_error (24000000 / 8) 9600 312) := by
  refine ⟨⟨by decide!, by decide!, ?_⟩, by decide!, by decide!, by decide!⟩
  intro T hmem
  have hlt := divider_selected_lt T 24000000 1
  simp [uart_baudrate] at hmem
  omega

/-- C1 (amended). For every requested baud `B` with `1 ≤ B ≤ effective_clock`, provided the
ceiling candidate fits the 16-bit divider (`effective_clock ≤ 65535 * B`), the effective clock is
below `2 ^ 24` and `3 * B < 2 ^ 25`, the divider `uart_baudrate` commits is one of the candidates
`floor(effective_clock / B)` and `ceil(effective_clock / B)`, and its absolute relative error
`|rate / B - 1|`, with the rate truncated to an integer as the code stores it, is at most that of
either candidate. -/
theorem C1_divider_minimal (T : Target) (bus B : ℕ) (h1 : 1 ≤ B) (h2 : B ≤ bus / 8)
    (h3 : bus / 8 < 2 ^ 24) (h4 : bus / 8 ≤ 65535 * B) (h5 : 3 * B < 2 ^ 25) :
    ∃ p d, uart_baudrate T bus B =
        [Op.UART_2_Stop, Op.Mantmr_WritePeriod p, Op.Mantmr_Stop, Op.Mantmr_Start,
          Op.UART_CLK_SetDividerValue d, Op.UART_2_Start] ∧
      (d = ⌊((bus / 8 : ℕ) : ℚ) / (B : ℚ)⌋₊ ∨ d = ⌈((bus / 8 : ℕ) : ℚ) / (B : ℚ)⌉₊) ∧
      rate_error (bus / 8) B d ≤ rate_error (bus / 8) B ⌊((bus / 8 : ℕ) : ℚ) / (B : ℚ)⌋₊ ∧
      rate_error (bus / 8) B d ≤ rate_error (bus / 8) B ⌈((bus / 8 : ℕ) : ℚ) / (B : ℚ)⌉₊ :=
  ⟨timer_period T bus B, divider_selected T bus B, rfl,
    divider_selected_minimal T bus B h1 h2 h3 h4 h5⟩

/-- C1 (amended), at a 24 MHz bus clock and 9600 baud on the Cortex-M3 target. -/
theorem C1_divider_minimal_witness :
    (1 ≤ 9600 ∧ 9600 ≤ 24000000 / 8 ∧ 24000000 / 8 < 2 ^ 24 ∧ 24000000 / 8 ≤ 65535 * 9600 ∧
      3 * 9600 < 2 ^ 25) ∧
    ∃ p d, uart_baudrate cortexM3 24000000 9600 =
        [Op.UART_2_Stop, Op.Mantmr_WritePeriod p, Op.Mantmr_Stop, Op.Mantmr_Start,
          Op.UART_CLK_SetDividerValue d, Op.UART_2_Start] ∧
      (d = ⌊((24000000 / 8 : ℕ) : ℚ) / ((9600 : ℕ) : ℚ)⌋₊ ∨
        d = ⌈((24000000 / 8 : ℕ) : ℚ) / ((9600 : ℕ) : ℚ)⌉₊) ∧
      rate_error (24000000 / 8) 9600 d ≤
        rate_error (24000000 / 8) 9600 ⌊((24000000 / 8 : ℕ) : ℚ) / ((9600 : ℕ) : ℚ)⌋₊ ∧
      rate_error (24000000 / 8) 9600 d ≤
        rate_error (24000000 / 8) 9600 ⌈((24000000 / 8 : ℕ) : ℚ) / ((9600 : ℕ) : ℚ)⌉₊ :=
  ⟨by decide, C1_divider_minimal cortexM3 24000000 9600 (by decide) (by decide) (by decide)
    (by decide) (by decide)⟩

/-- C2 (as stated, refuted). On the Cortex-M3 target, with a 24 MHz bus clock, a request of
4,000,000,000 baud (above the effective clock) makes `uart_baudrate` commit the divider 0. -/
theorem C2_refuted :
    Op.UART_CLK_SetDividerValue 0 ∈ uart_baudrate cortexM3 24000000 4000000000 := by
  decide!

/-- C2 (amended). For every requested baud `B ≥ 1` whose ideal divider does not exceed the
16-bit range (`effective_clock ≤ 65535 * B`, effective clock between 1 and `2 ^ 24`), the divider
`uart_baudrate` commits is a positive integer, between 1 and 65535: on every target when
`B ≤ effective_clock`, and on the Cortex-M3 target also for `B` above the effective clock, up to
`2 ^ 31`. -/
theorem C2_divider_positive (T : Target) (bus B : ℕ) (h1 : 1 ≤ B) (hbus : 8 ≤ bus)
    (h3 : bus / 8 < 2 ^ 24) (h4 : bus / 8 ≤ 65535 * B)
    (hT : B ≤ bus / 8 ∨ (T = cortexM3 ∧ B ≤ 2 ^ 31)) :
    ∃ p d, uart_baudrate T bus B =
        [Op.UART_2_Stop, Op.Mantmr_WritePeriod p, Op.Mantmr_Stop, Op.Mantmr_Start,
          Op.UART_CLK_SetDividerValue d, Op.UART_2_Start] ∧ 1 ≤ d ∧ d ≤ 65535 := by
  refine ⟨timer_period T bus B, divider_selected T bus B, rfl, ?_⟩
  by_cases h2 : B ≤ bus / 8
  · obtain ⟨c1, c2, c3, -, -⟩ := candidates (bus / 8) B h1 h2 h4
    rw [divider_selected_eq T bus B h1 h2 h3 h4]
    split_ifs <;> omega
  · rcases hT with h | ⟨hTe, h31⟩
    · exact absurd h h2
    · subst hTe
      rw [divider_selected_above_clock bus B hbus h3 (by omega) h31]
      omega

/-- C2 (amended), with a 24 MHz bus clock: at 9600 baud, and at 5,000,000 baud (above the
effective clock) on the Cortex-M3 target. -/
theorem C2_divider_positive_witness :
    ((1 ≤ 9600 ∧ 8 ≤ 24000000 ∧ 24000000 / 8 < 2 ^ 24 ∧ 24000000 / 8 ≤ 65535 * 9600 ∧
        9600 ≤ 24000000 / 8) ∧
      ∃ p d, uart_baudrate cortexM3 24000000 9600 =
        [Op.UART_2_Stop, Op.Mantmr_WritePeriod p, Op.Mantmr_Stop, Op.Mantmr_Start,
          Op.UART_CLK_SetDividerValue d, Op.UART_2_Start] ∧ 1 ≤ d ∧ d ≤ 65535) ∧
    ((1 ≤ 5000000 ∧ 24000000 / 8 ≤ 65535 * 5000000 ∧ 24000000 / 8 < 5000000 ∧
        5000000 ≤ 2 ^ 31) ∧
      ∃ p d, uart_baudrate cortexM3 24000000 5000000 =
        [Op.UART_2_Stop, Op.Mantmr_WritePeriod p, Op.Mantmr_Stop, Op.Mantmr_Start,
          Op.UART_CLK_SetDividerValue d, Op.UART_2_Start] ∧ 1 ≤ d ∧ d ≤ 65535) :=
  ⟨⟨by decide, C2_divider_positive cortexM3 24000000 9600 (by decide) (by decide) (by decide)
      (by decide) (Or.inl (by decide))⟩,
    ⟨by decide, C2_divider_positive cortexM3 24000000 5000000 (by decide) (by decide) (by decide)
      (by decide) (Or.inr ⟨rfl, by decide⟩)⟩⟩

/-- C3 (as stated, refuted). With a 24 MHz bus clock and a request of 2,250,000 baud the
candidates 1 and 2 differ and have exactly equal absolute relative error (1/3, with the rate
real-valued or truncated alike), and `uart_baudrate` commits the ceiling candidate 2, not the
floor candidate: the computed single-precision errors are 2796203/8388608 for the floor and the
smaller 5592405/16777216 for the ceiling. -/
theorem C3_refuted :
    ⌊((24000000 / 8 : ℕ) : ℚ) / ((2250000 : ℕ) : ℚ)⌋₊ = 1 ∧
    ⌈((24000000 / 8 : ℕ) : ℚ) / ((2250000 : ℕ) : ℚ)⌉₊ = 2 ∧
    exact_rate_error (24000000 / 8) 2250000 1 = exact_rate_error (24000000 / 8) 2250000 2 ∧
    rate_error (24000000 / 8) 2250000 1 = rate_error (24000000 / 8) 2250000 2 ∧
    FP.fabs (down_rate_error cortexM3 24000000 2250000) = FP.fin (2796203 / 8388608) ∧
    FP.fabs (up_rate_error cortexM3 24000000 2250000) = FP.fin (5592405 / 16777216) ∧
    uart_baudrate cortexM3 24000000 2250000 =
      [Op.UART_2_Stop, Op.Mantmr_WritePeriod 4294967294, Op.Mantmr_Stop, Op.Mantmr_Start,
        Op.UART_CLK_SetDividerValue 2, Op.UART_2_Start] := by
  decide!

/-- C3 (amended). For every requested baud `B` within range (`1 ≤ B ≤ effective_clock`,
`effective_clock ≤ 65535 * B`, effective clock below `2 ^ 24`), whether or not the exact errors of
the two candidates are equal, the two computed single-precision errors `fabs(down_rate_error)`
and `fabs(up_rate_error)` are finite numbers `a` and `b`, within `2 ^ -24` and `2 ^ -25` of the
exact absolute relative errors of the floor and the ceiling candidate (integer rates), and the
divider `d` that `uart_baudrate` commits is the floor candidate `down` when `a < b` and the
ceiling candidate `up` otherwise; in particular it is `up` when the computed errors are equal, and
when the candidates differ it is `down` only when the computed error of `down` is strictly
smaller. -/
theorem C3_selection_rule (T : Target) (bus B : ℕ) (h1 : 1 ≤ B) (h2 : B ≤ bus / 8)
    (h3 : bus / 8 < 2 ^ 24) (h4 : bus / 8 ≤ 65535 * B) :
    ∃ (a b : ℚ) (p d : ℕ),
      FP.fabs (down_rate_error T bus B) = FP.fin a ∧
      FP.fabs (up_rate_error T bus B) = FP.fin b ∧
      |a - rate_error (bus / 8) B ⌊((bus / 8 : ℕ) : ℚ) / (B : ℚ)⌋₊| ≤ 1 / 2 ^ 24 ∧
      |b - rate_error (bus / 8) B ⌈((bus / 8 : ℕ) : ℚ) / (B : ℚ)⌉₊| ≤ 1 / 2 ^ 25 ∧
      uart_baudrate T bus B =
        [Op.UART_2_Stop, Op.Mantmr_WritePeriod p, Op.Mantmr_Stop, Op.Mantmr_Start,
          Op.UART_CLK_SetDividerValue d, Op.UART_2_Start] ∧
      (a < b → d = ⌊((bus / 8 : ℕ) : ℚ) / (B : ℚ)⌋₊) ∧
      (¬ a < b → d = ⌈((bus / 8 : ℕ) : ℚ) / (B : ℚ)⌉₊) ∧
      (a = b → d = ⌈((bus / 8 : ℕ) : ℚ) / (B : ℚ)⌉₊) ∧
      (⌊((bus / 8 : ℕ) : ℚ) / (B : ℚ)⌋₊ ≠ ⌈((bus / 8 : ℕ) : ℚ) / (B : ℚ)⌉₊ →
        (d = ⌊((bus / 8 : ℕ) : ℚ) / (B : ℚ)⌋₊ ↔ a < b)) := by
  obtain ⟨hde, hue⟩ := computed_errors T bus B h1 h2 h3 h4
  obtain ⟨k1, k2⟩ := computed_errors_close (bus / 8) B h1 h2 h4
  have hd := divider_selected_eq T bus B h1 h2 h3 h4
  have hs : down_selected T bus B = decide
      (|roundNE 24 (roundNE 24 (((bus / 8 / (bus / 8 / B) : ℕ) : ℚ) / B) - 1)| <
        |roundNE 24
          (roundNE 24 (((bus / 8 / ⌈((bus / 8 : ℕ) : ℚ) / (B : ℚ)⌉₊ : ℕ) : ℚ) / B) - 1)|) := by
    unfold down_selected
    rw [hde, hue]
    simp only [FP.fabs, FP.lt]
  have hfl : ⌊((bus / 8 : ℕ) : ℚ) / (B : ℚ)⌋₊ = bus / 8 / B := Nat.floor_div_eq_div _ _
  have hlo : ∀ h : |roundNE 24 (roundNE 24 (((bus / 8 / (bus / 8 / B) : ℕ) : ℚ) / B) - 1)| <
      |roundNE 24
        (roundNE 24 (((bus / 8 / ⌈((bus / 8 : ℕ) : ℚ) / (B : ℚ)⌉₊ : ℕ) : ℚ) / B) - 1)|,
      divider_selected T bus B = ⌊((bus / 8 : ℕ) : ℚ) / (B : ℚ)⌋₊ := by
    intro h
    rw [hd, hs, decide_eq_true h, if_pos rfl, hfl]
  have hhi : ∀ h : ¬ |roundNE 24 (roundNE 24 (((bus / 8 / (bus / 8 / B) : ℕ) : ℚ) / B) - 1)| <
      |roundNE 24
        (roundNE 24 (((bus / 8 / ⌈((bus / 8 : ℕ) : ℚ) / (B : ℚ)⌉₊ : ℕ) : ℚ) / B) - 1)|,
      divider_selected T bus B = ⌈((bus / 8 : ℕ) : ℚ) / (B : ℚ)⌉₊ := by
    intro h
    rw [hd, hs, decide_eq_false h, if_neg Bool.false_ne_true]
  refine ⟨_, _, timer_period T bus B, divider_selected T bus B, by rw [hde]; rfl,
    by rw [hue]; rfl, by rw [hfl]; exact k1, k2, rfl, hlo, hhi,
    fun h => hhi (by rw [h]; exact lt_irrefl _), fun hne => ?_⟩
  refine ⟨fun hdf => ?_, hlo⟩
  by_contra hnot
  exact hne (hdf.symm.trans (hhi hnot))

/-- C3 (amended), at a 24 MHz bus clock on the Cortex-M3 target. At 1804 baud the candidates 1662
and 1663 have equal computed errors (2325/4194304) and the ceiling 1663 is committed. At 193,750
baud the candidates 15 and 16 have exactly equal absolute relative error (1/31) and the floor 15 is
committed, its computed error 33825/1048576 being below 541201/16777216. -/
theorem C3_selection_rule_witness :
    ((1 ≤ 1804 ∧ 1804 ≤ 24000000 / 8 ∧ 24000000 / 8 < 2 ^ 24 ∧ 24000000 / 8 ≤ 65535 * 1804 ∧
        FP.fabs (down_rate_error cortexM3 24000000 1804) = FP.fin (2325 / 4194304) ∧
        FP.fabs (up_rate_error cortexM3 24000000 1804) = FP.fin (2325 / 4194304) ∧
        ⌊((24000000 / 8 : ℕ) : ℚ) / ((1804 : ℕ) : ℚ)⌋₊ = 1662 ∧
        ⌈((24000000 / 8 : ℕ) : ℚ) / ((1804 : ℕ) : ℚ)⌉₊ = 1663 ∧
        Op.UART_CLK_SetDividerValue 1663 ∈ uart_baudrate cortexM3 24000000 1804) ∧
      ∃ (a b : ℚ) (p d : ℕ),
        FP.fabs (down_rate_error cortexM3 24000000 1804) = FP.fin a ∧
        FP.fabs (up_rate_error cortexM3 24000000 1804) = FP.fin b ∧
        |a - rate_error (24000000 / 8) 1804 ⌊((24000000 / 8 : ℕ) : ℚ) / ((1804 : ℕ) : ℚ)⌋₊| ≤ 1 / 2 ^ 24 ∧
        |b - rate_error (24000000 / 8) 1804 ⌈((24000000 / 8 : ℕ) : ℚ) / ((1804 : ℕ) : ℚ)⌉₊| ≤ 1 / 2 ^ 25 ∧
        uart_baudrate cortexM3 24000000 1804 =
          [Op.UART_2_Stop, Op.Mantmr_WritePeriod p, Op.Mantmr_Stop, Op.Mantmr_Start,
            Op.UART_CLK_SetDividerValue d, Op.UART_2_Start] ∧
        (a < b → d = ⌊((24000000 / 8 : ℕ) : ℚ) / ((1804 : ℕ) : ℚ)⌋₊) ∧
        (¬ a < b → d = ⌈((24000000 / 8 : ℕ) : ℚ) / ((1804 : ℕ) : ℚ)⌉₊) ∧
        (a = b → d = ⌈((24000000 / 8 : ℕ) : ℚ) / ((1804 : ℕ) : ℚ)⌉₊) ∧
        (⌊((24000000 / 8 : ℕ) : ℚ) / ((1804 : ℕ) : ℚ)⌋₊ ≠ ⌈((24000000 / 8 : ℕ) : ℚ) / ((1804 : ℕ) : ℚ)⌉₊ →
          (d = ⌊((24000000 / 8 : ℕ) : ℚ) / ((1804 : ℕ) : ℚ)⌋₊ ↔ a < b))) ∧
    ((1 ≤ 193750 ∧ 193750 ≤ 24000000 / 8 ∧ 24000000 / 8 < 2 ^ 24 ∧
        24000000 / 8 ≤ 65535 * 193750 ∧
        exact_rate_error (24000000 / 8) 193750 15 = exact_rate_error (24000000 / 8) 193750 16 ∧
        rate_error (24000000 / 8) 193750 15 = rate_error (24000000 / 8) 193750 16 ∧
        FP.fabs (down_rate_error cortexM3 24000000 193750) = FP.fin (33825 / 1048576) ∧
        FP.fabs (up_rate_error cortexM3 24000000 193750) = FP.fin (541201 / 16777216) ∧
        ⌊((24000000 / 8 : ℕ) : ℚ) / ((193750 : ℕ) : ℚ)⌋₊ = 15 ∧
        ⌈((24000000 / 8 : ℕ) : ℚ) / ((193750 : ℕ) : ℚ)⌉₊ = 16 ∧
        Op.UART_CLK_SetDividerValue 15 ∈ uart_baudrate cortexM3 24000000 193750) ∧
      ∃ (a b : ℚ) (p d : ℕ),
        FP.fabs (down_rate_error cortexM3 24000000 193750) = FP.fin a ∧
        FP.fabs (up_rate_error cortexM3 24000000 193750) = FP.fin b ∧
        |a - rate_error (24000000 / 8) 193750 ⌊((24000000 / 8 : ℕ) : ℚ) / ((193750 : ℕ) : ℚ)⌋₊| ≤ 1 / 2 ^ 24 ∧
        |b - rate_error (24000000 / 8) 193750 ⌈((24000000 / 8 : ℕ) : ℚ) / ((193750 : ℕ) : ℚ)⌉₊| ≤ 1 / 2 ^ 25 ∧
        uart_baudrate cortexM3 24000000 193750 =
          [Op.UART_2_Stop, Op.Mantmr_WritePeriod p, Op.Mantmr_Stop, Op.Mantmr_Start,
            Op.UART_CLK_SetDividerValue d, Op.UART_2_Start] ∧
        (a < b → d = ⌊((24000000 / 8 : ℕ) : ℚ) / ((193750 : ℕ) : ℚ)⌋₊) ∧
        (¬ a < b → d = ⌈((24000000 / 8 : ℕ) : ℚ) / ((193750 : ℕ) : ℚ)⌉₊) ∧
        (a = b → d = ⌈((24000000 / 8 : ℕ) : ℚ) / ((193750 : ℕ) : ℚ)⌉₊) ∧
        (⌊((24000000 / 8 : ℕ) : ℚ) / ((193750 : ℕ) : ℚ)⌋₊ ≠ ⌈((24000000 / 8 : ℕ) : ℚ) / ((193750 : ℕ) : ℚ)⌉₊ →
          (d = ⌊((24000000 / 8 : ℕ) : ℚ) / ((193750 : ℕ) : ℚ)⌋₊ ↔ a < b))) :=
  ⟨⟨by decide!, C3_selection_rule cortexM3 24000000 1804 (by decide) (by decide) (by decide)
      (by decide)⟩,
    ⟨by decide!, C3_selection_rule cortexM3 24000000 193750 (by decide) (by decide) (by decide)
      (by decide)⟩⟩

/-- C4 (as stated, refuted). With a 24 MHz bus clock and a request of 9600 baud the divider
committed is not 313. -/
theorem C4_refuted :
    Op.UART_CLK_SetDividerValue 313 ∉ uart_baudrate cortexM3 24000000 9600 := by
  decide!

/-- C4 (amended). With a 24 MHz bus clock and a request of 9600 baud, on every target, the
candidates 312 and 313 have the rates 9615 and 9584 and the divider committed is 312 (the
timer period written is 231). -/
theorem C4_divider_9600 (T : Target) :
    down_rate T 24000000 9600 = 9615 ∧ up_rate T 24000000 9600 = 9584 ∧
    uart_baudrate T 24000000 9600 =
      [Op.UART_2_Stop, Op.Mantmr_WritePeriod 231, Op.Mantmr_Stop, Op.Mantmr_Start,
        Op.UART_CLK_SetDividerValue 312, Op.UART_2_Start] := by
  have hd : divider_selected T 24000000 9600 = 312 := by
    rw [divider_selected_eq T 24000000 9600 (by decide) (by decide) (by decide) (by decide),
      down_selected_eq T 24000000 9600 (by decide) (by decide) (by decide) (by decide)]
    decide!
  have hfl := floor_divider 24000000 9600 (by decide) (by decide) (by decide)
  have hce := ceil_divider 24000000 9600 (by decide) (by decide) (by decide)
  have hc : ⌈((24000000 / 8 : ℕ) : ℚ) / ((9600 : ℕ) : ℚ)⌉₊ = 313 := by decide!
  refine ⟨?_, ?_, ?_⟩
  · unfold down_rate
    rw [hfl, rate_eq T _ _ (by decide) (by decide)]
  · unfold up_rate
    rw [hce, hc, rate_eq T _ _ (by decide) (by decide)]
  · unfold uart_baudrate timer_period delay_tmr uart_frequency
    rw [hd]
    simp [udiv]

/-- C5 (as stated, refuted). On the Cortex-M3 target with a 24 MHz bus clock, `uart_baudrate(0)`
performs all six peripheral calls, committing the divider 65535. -/
theorem C5_refuted :
    uart_baudrate cortexM3 24000000 0 =
      [Op.UART_2_Stop, Op.Mantmr_WritePeriod 49176, Op.Mantmr_Stop, Op.Mantmr_Start,
        Op.UART_CLK_SetDividerValue 65535, Op.UART_2_Start] := by
  decide!

/-- C5 (amended). `uart_baudrate` has no rejection path: called with baud 0 (bus clock at least
8 Hz) it divides by zero in floating point, which yields `+inf` for `divider` and NaN for both
errors, so the test of line 63 fails and the divider committed is the conversion of `+inf` to
`uint16_t`; all six peripheral calls are made, starting with the stop of the UART. -/
theorem C5_zero_baud_runs (T : Target) (bus : ℕ) (hbus : 8 ≤ bus) :
    divider bus 0 = FP.inf false ∧ down_rate_error T bus 0 = FP.nan ∧
    up_rate_error T bus 0 = FP.nan ∧ down_selected T bus 0 = false ∧
    ∃ p, uart_baudrate T bus 0 =
      [Op.UART_2_Stop, Op.Mantmr_WritePeriod p, Op.Mantmr_Stop, Op.Mantmr_Start,
        Op.UART_CLK_SetDividerValue (T.d2u16 (FP.inf false) % 2 ^ 16), Op.UART_2_Start] := by
  obtain ⟨hdiv, hd, hu⟩ := zero_baud_values T bus hbus
  refine ⟨hdiv, hd, hu, ?_, timer_period T bus 0, ?_⟩
  · unfold down_selected
    rw [hd, hu]
    rfl
  · rw [← divider_selected_zero_baud T bus hbus]
    rfl

/-- C5 (amended), on the Cortex-M3 target with a 24 MHz bus clock. -/
theorem C5_zero_baud_runs_witness :
    8 ≤ 24000000 ∧ divider 24000000 0 = FP.inf false ∧
    down_rate_error cortexM3 24000000 0 = FP.nan ∧
    up_rate_error cortexM3 24000000 0 = FP.nan ∧ down_selected cortexM3 24000000 0 = false ∧
    ∃ p, uart_baudrate cortexM3 24000000 0 =
      [Op.UART_2_Stop, Op.Mantmr_WritePeriod p, Op.Mantmr_Stop, Op.Mantmr_Start,
        Op.UART_CLK_SetDividerValue (cortexM3.d2u16 (FP.inf false) % 2 ^ 16),
        Op.UART_2_Start] :=
  ⟨by decide, C5_zero_baud_runs cortexM3 24000000 (by decide)⟩

/-- C6 (as stated, refuted). With a 24 MHz bus clock and a request of 3,000,000 baud the divider
is 1, `delay_tmr` is 0, and the period written is `0 - 3` wrapped to 4294967293, not 0. -/
theorem C6_refuted :
    delay_tmr cortexM3 24000000 3000000 = 0 ∧
    uart_baudrate cortexM3 24000000 3000000 =
      [Op.UART_2_Stop, Op.Mantmr_WritePeriod 4294967293, Op.Mantmr_Stop, Op.Mantmr_Start,
        Op.UART_CLK_SetDividerValue 1, Op.UART_2_Start] := by
  decide!

/-- C6 (amended). For every requested baud the timer period `uart_baudrate` writes is
`delay_tmr - 3` computed in unsigned 32-bit arithmetic, without a clamp: it is `delay_tmr - 3`
when `delay_tmr ≥ 3` and wraps to `2 ^ 32 - 3 + delay_tmr` when `delay_tmr < 3`. -/
theorem C6_timer_period_wraps (T : Target) (bus B : ℕ) :
    ∃ p d, uart_baudrate T bus B =
        [Op.UART_2_Stop, Op.Mantmr_WritePeriod p, Op.Mantmr_Stop, Op.Mantmr_Start,
          Op.UART_CLK_SetDividerValue d, Op.UART_2_Start] ∧
      (3 ≤ delay_tmr T bus B → p = delay_tmr T bus B - 3) ∧
      (delay_tmr T bus B < 3 → p = 2 ^ 32 - 3 + delay_tmr T bus B) := by
  have hlt : delay_tmr T bus B < 2 ^ 32 := by
    unfold delay_tmr
    have : udiv T bus (uart_frequency T bus B) * 3 % 2 ^ 32 < 2 ^ 32 :=
      Nat.mod_lt _ (by norm_num)
    omega
  refine ⟨timer_period T bus B, divider_selected T bus B, rfl, ?_, ?_⟩
  · intro h
    unfold timer_period
    omega
  · intro h
    unfold timer_period
    omega

/-- C7. For every requested baud the peripheral calls of `uart_baudrate` are, in this order:
stop the UART, write the timer period, stop the timer, start the timer, set the clock divider,
start the UART. The UART stop comes first, the UART start last, and the period write and the
divider write lie between them. -/
theorem C7_call_order (T : Target) (bus B : ℕ) :
    ∃ p d, uart_baudrate T bus B =
      [Op.UART_2_Stop, Op.Mantmr_WritePeriod p, Op.Mantmr_Stop, Op.Mantmr_Start,
        Op.UART_CLK_SetDividerValue d, Op.UART_2_Start] ∧
      (uart_baudrate T bus B).head? = some Op.UART_2_Stop ∧
      (uart_baudrate T bus B).getLast? = some Op.UART_2_Start :=
  ⟨timer_period T bus B, divider_selected T bus B, rfl, rfl, rfl⟩

/-! ## The bridge loop -/

theorem spin_some (ready : ℕ → ℕ) (k : ℕ) (hk : ready k ≠ 0) :
    ∀ fuel j, j ≤ k → k - j < fuel → spin ready fuel j = some () := by
  intro fuel
  induction fuel with
  | zero => intro j _ h; omega
  | succ f ih =>
    intro j hj hlt
    unfold spin
    split_ifs with h0
    · have hne : j ≠ k := fun h => hk (h ▸ h0)
      exact ih (j + 1) (by omega) (by omega)
    · rfl

theorem fill_reads (g : ℕ → ℕ) (count : ℕ) (hc : count ≤ 255) :
    ∀ n idx (s : St), idx + n = count →
      (fill g count n idx s).reads = s.reads + n ∧ (fill g count n idx s).out = s.out ∧
      (fill g count n idx s).buffer.length = s.buffer.length := by
  intro n
  induction n with
  | zero => intro idx s _; simp [fill]
  | succ n ih =>
    intro idx s h
    have hlt : idx < count := by omega
    have hmod : (idx + 1) % 256 = idx + 1 := Nat.mod_eq_of_lt (by omega)
    unfold fill
    rw [if_pos hlt, hmod]
    obtain ⟨r1, r2, r3⟩ := ih (idx + 1) _ (by omega : idx + 1 + n = count)
    refine ⟨?_, ?_, ?_⟩
    · rw [r1]; simp only; omega
    · rw [r2]
    · rw [r3]; simp

theorem fill_buffer (g : ℕ → ℕ) (count : ℕ) (hc : count ≤ 255) :
    ∀ n idx (s : St), idx + n = count → count ≤ s.buffer.length → ∀ i,
      (fill g count n idx s).buffer[i]? =
        if idx ≤ i ∧ i < count then some (g (s.reads + (i - idx)) % 256) else s.buffer[i]? := by
  intro n
  induction n with
  | zero =>
    intro idx s h _ i
    have : ¬ (idx ≤ i ∧ i < count) := by omega
    simp [fill, this]
  | succ n ih =>
    intro idx s h hlen i
    have hlt : idx < count := by omega
    have hmod : (idx + 1) % 256 = idx + 1 := Nat.mod_eq_of_lt (by omega)
    unfold fill
    rw [if_pos hlt, hmod, ih (idx + 1) _ (by omega) (by simpa using hlen) i]
    by_cases h1 : idx + 1 ≤ i ∧ i < count
    · have h2 : idx ≤ i ∧ i < count := ⟨by omega, h1.2⟩
      rw [if_pos h1, if_pos h2]
      simp only
      congr 3
      omega
    · rw [if_neg h1]
      by_cases h3 : i = idx
      · subst h3
        have h2 : i ≤ i ∧ i < count := ⟨le_refl _, hlt⟩
        rw [if_pos h2]
        simp [List.getElem?_set, (by omega : i < s.buffer.length)]
      · have h2 : ¬ (idx ≤ i ∧ i < count) := by omega
        rw [if_neg h2]
        simp [List.getElem?_set, Ne.symm h3]

theorem fill_take (g : ℕ → ℕ) (count : ℕ) (hc : count ≤ 255) (s : St) (hs : s.reads = 0)
    (hlen : count ≤ s.buffer.length) :
    (fill g count count 0 s).buffer.take count =
      (List.range count).map (fun i => g i % 256) := by
  apply List.ext_getElem?
  intro i
  rw [List.getElem?_take, fill_buffer g count hc count 0 s (by omega) hlen i]
  by_cases h : i < count
  · simp [h, hs]
  · have hnone : (List.range count)[i]? = none :=
      List.getElem?_eq_none (by simp only [List.length_range]; omega)
    simp [h, hnone]

theorem spin_terminates (ready : ℕ → ℕ) (h : ∃ k, ready k ≠ 0) :
    ∃ fuel0, ∀ fuel, fuel0 ≤ fuel → spin ready fuel 0 = some () := by
  obtain ⟨k, hk⟩ := h
  exact ⟨k + 1, fun fuel hf => spin_some ready k hk fuel 0 (Nat.zero_le _) (by omega)⟩

theorem host_to_uart_spec (E : Env) (s : St)
    (h153 : E.DataIsReady ≠ 0 → E.GetAll ≠ [] → ∃ k, E.CDCIsReady_153 k ≠ 0) :
    ∃ fuel0, ∀ fuel, fuel0 ≤ fuel → ∃ s1, host_to_uart fuel E s = some s1 ∧
      s1.reads = s.reads ∧
      s1.buffer = (if E.DataIsReady ≠ 0 then E.GetAll ++ s.buffer.drop E.GetAll.length
        else s.buffer) ∧
      s1.out = s.out ++
        (if E.DataIsReady ≠ 0 ∧ E.GetAll ≠ [] then [Ev.UART_2_PutArray E.GetAll] else []) := by
  by_cases hd : E.DataIsReady ≠ 0
  · by_cases hn : E.GetAll = []
    · refine ⟨0, fun fuel _ => ?_⟩
      unfold host_to_uart
      simp [hd, hn]
    · obtain ⟨f0, hf0⟩ := spin_terminates _ (h153 hd hn)
      refine ⟨f0, fun fuel hf => ?_⟩
      have hlen : E.GetAll.length ≠ 0 := fun h => hn (List.length_eq_zero.mp h)
      unfold host_to_uart
      simp [hd, hn, hlen, hf0 fuel hf]
  · refine ⟨0, fun fuel _ => ?_⟩
    unfold host_to_uart
    simp [hd]

theorem uart_to_host_eq (E : Env) (s : St)
    (h190 : E.CDCIsReady_169 ≠ 0 → rx_count E = 64 → ∃ k, E.CDCIsReady_190 k ≠ 0) :
    ∃ fuel0, ∀ fuel, fuel0 ≤ fuel → uart_to_host fuel E s = some
      (if E.CDCIsReady_169 ≠ 0 ∧ 0 < rx_count E then
        { fill E.GetByte (rx_count E) (rx_count E) 0 s with
          out := (fill E.GetByte (rx_count E) (rx_count E) 0 s).out ++
            (Ev.USBUART_PutData
                ((fill E.GetByte (rx_count E) (rx_count E) 0 s).buffer.take (rx_count E)) ::
              (if rx_count E = 64 then [Ev.USBUART_PutData []] else [])) }
      else s) := by
  by_cases hr : E.CDCIsReady_169 ≠ 0 ∧ 0 < rx_count E
  · by_cases h64 : rx_count E = 64
    · obtain ⟨f0, hf0⟩ := spin_terminates _ (h190 hr.1 h64)
      refine ⟨f0, fun fuel hf => ?_⟩
      unfold uart_to_host
      simp [hr, h64, hf0 fuel hf, tsk_usb_BUFFER_LEN]
    · refine ⟨0, fun fuel _ => ?_⟩
      unfold uart_to_host
      simp [hr, h64, tsk_usb_BUFFER_LEN]
  · refine ⟨0, fun fuel _ => ?_⟩
    unfold uart_to_host
    simp only [gt_iff_lt]
    rw [if_neg hr, if_neg hr]

theorem rx_count_le (E : Env) : rx_count E ≤ 64 := by
  unfold rx_count tsk_usb_BUFFER_LEN
  split_ifs <;> omega

theorem uart_to_host_spec (E : Env) (s : St)
    (h190 : E.CDCIsReady_169 ≠ 0 → rx_count E = 64 → ∃ k, E.CDCIsReady_190 k ≠ 0)
    (hs : s.reads = 0) (hlen : 64 ≤ s.buffer.length) :
    ∃ fuel0, ∀ fuel, fuel0 ≤ fuel → ∃ s2, uart_to_host fuel E s = some s2 ∧
      s2.buffer.length = s.buffer.length ∧
      (E.CDCIsReady_169 ≠ 0 ∧ 0 < rx_count E →
        s2.reads = rx_count E ∧
        s2.buffer.take (rx_count E) = (List.range (rx_count E)).map (fun i => E.GetByte i % 256) ∧
        s2.out = s.out ++ (Ev.USBUART_PutData
            ((List.range (rx_count E)).map (fun i => E.GetByte i % 256)) ::
          (if rx_count E = 64 then [Ev.USBUART_PutData []] else []))) ∧
      (¬ (E.CDCIsReady_169 ≠ 0 ∧ 0 < rx_count E) → s2 = s) := by
  have hc64 := rx_count_le E
  obtain ⟨r1, r2, r3⟩ := fill_reads E.GetByte (rx_count E) (by omega) (rx_count E) 0 s (by omega)
  have htake := fill_take E.GetByte (rx_count E) (by omega) s hs (by omega)
  obtain ⟨f0, hf0⟩ := uart_to_host_eq E s h190
  refine ⟨f0, fun fuel hf => ⟨_, hf0 fuel hf, ?_, ?_, ?_⟩⟩
  · by_cases hr : E.CDCIsReady_169 ≠ 0 ∧ 0 < rx_count E
    · rw [if_pos hr]
      exact r3
    · rw [if_neg hr]
  · intro hr
    rw [if_pos hr]
    refine ⟨?_, htake, ?_⟩
    · simp only [r1, hs]
      omega
    · simp only [r2, htake]
  · intro hr
    rw [if_neg hr]

theorem usb_packets_append (a b : List Ev) :
    usb_packets (a ++ b) = usb_packets a ++ usb_packets b := by
  induction a with
  | nil => rfl
  | cons x xs ih => cases x <;> simp [usb_packets, ih]

theorem uart_tx_append (a b : List Ev) : uart_tx (a ++ b) = uart_tx a ++ uart_tx b := by
  induction a with
  | nil => rfl
  | cons x xs ih => cases x <;> simp [uart_tx, ih]

theorem no_data (l : List Ev) (h : ∀ e ∈ l, Ev.isData e = false) :
    usb_packets l = [] ∧ uart_tx l = [] ∧ (∀ d, Ev.USBUART_PutData d ∉ l) ∧
      (∀ d, Ev.UART_2_PutArray d ∉ l) := by
  refine ⟨?_, ?_, ?_, ?_⟩
  · induction l with
    | nil => rfl
    | cons x xs ih =>
      have hx := h x (List.mem_cons_self _ _)
      have hxs := ih (fun e he => h e (List.mem_cons_of_mem _ he))
      cases x <;> simp_all [usb_packets, Ev.isData]
  · induction l with
    | nil => rfl
    | cons x xs ih =>
      have hx := h x (List.mem_cons_self _ _)
      have hxs := ih (fun e he => h e (List.mem_cons_of_mem _ he))
      cases x <;> simp_all [uart_tx, Ev.isData]
  · intro d hm
    have := h _ hm
    simp [Ev.isData] at this
  · intro d hm
    have := h _ hm
    simp [Ev.isData] at this

theorem cdc_handshake_spec (E : Env) :
    ∃ pre, (∀ e ∈ pre, Ev.isData e = false) ∧
      ∀ s, cdc_handshake E s = { s with out := s.out ++ pre } := by
  by_cases h : E.IsConfigurationChanged ≠ 0 ∧ E.GetConfiguration_133 ≠ 0
  · refine ⟨[Ev.USBUART_CDC_Init], ?_, fun s => by unfold cdc_handshake; rw [if_pos h]⟩
    intro e he
    rw [List.mem_singleton.mp he]
    rfl
  · exact ⟨[], fun e he => by simp at he, fun s => by unfold cdc_handshake; rw [if_neg h]; simp⟩

theorem line_change_spec (T : Target) (K : Build) (E : Env) :
    ∃ post, (∀ e ∈ post, Ev.isData e = false) ∧
      ∀ s, line_change T K E s = { s with out := s.out ++ post } := by
  by_cases h : K.CY_PSOC3_or_CY_PSOC5LP = true ∧ E.IsLineChanged % 256 ≠ 0 ∧
      Nat.land (E.IsLineChanged % 256) K.USBUART_LINE_CODING_CHANGED ≠ 0
  · refine ⟨_, ?_, fun s => by unfold line_change; rw [if_pos h]⟩
    intro e he
    obtain ⟨op, -, rfl⟩ := List.mem_map.mp he
    rfl
  · exact ⟨[], fun e he => by simp at he, fun s => by unfold line_change; rw [if_neg h]; simp⟩

theorem loop_body_spec (T : Target) (K : Build) (E : Env) (buf : List ℕ)
    (hboot : E.bldr_Read ≠ 0) (hcfg : E.GetConfiguration ≠ 0)
    (hbuf : buf.length = 64) (hall : E.GetAll.length ≤ 64)
    (h153 : E.DataIsReady ≠ 0 → E.GetAll ≠ [] → ∃ k, E.CDCIsReady_153 k ≠ 0)
    (h190 : E.CDCIsReady_169 ≠ 0 → rx_count E = 64 → ∃ k, E.CDCIsReady_190 k ≠ 0) :
    ∃ pre post, (∀ e ∈ pre, Ev.isData e = false) ∧ (∀ e ∈ post, Ev.isData e = false) ∧
      ∃ fuel0, ∀ fuel, fuel0 ≤ fuel → ∃ s, loop_body T K fuel E (St.init buf) = some s ∧
        s.buffer.length = 64 ∧
        (E.CDCIsReady_169 ≠ 0 ∧ 0 < rx_count E →
          s.reads = rx_count E ∧
          s.buffer.take (rx_count E) =
            (List.range (rx_count E)).map (fun i => E.GetByte i % 256) ∧
          s.out = pre ++
            (if E.DataIsReady ≠ 0 ∧ E.GetAll ≠ [] then [Ev.UART_2_PutArray E.GetAll] else [])
            ++ (Ev.USBUART_PutData ((List.range (rx_count E)).map (fun i => E.GetByte i % 256)) ::
              (if rx_count E = 64 then [Ev.USBUART_PutData []] else [])) ++ post) ∧
        (¬ (E.CDCIsReady_169 ≠ 0 ∧ 0 < rx_count E) →
          s.reads = 0 ∧
          s.out = pre ++
            (if E.DataIsReady ≠ 0 ∧ E.GetAll ≠ [] then [Ev.UART_2_PutArray E.GetAll] else [])
            ++ post) := by
  obtain ⟨pre, hp, hpre⟩ := cdc_handshake_spec E
  obtain ⟨post, hq, hpost⟩ := line_change_spec T K E
  refine ⟨pre, post, hp, hq, ?_⟩
  have hs0 : cdc_handshake E (St.init buf) = { buffer := buf, reads := 0, out := pre } := by
    rw [hpre]
    simp [St.init]
  obtain ⟨f1, hf1⟩ := host_to_uart_spec E (cdc_handshake E (St.init buf)) h153
  -- the state after the host→UART direction does not depend on the fuel
  obtain ⟨s1, e1, a1, a2, a3⟩ := hf1 f1 (le_refl _)
  rw [hs0] at a1 a2 a3
  have hlen1 : s1.buffer.length = 64 := by
    rw [a2]
    split_ifs
    · simp only [List.length_append, List.length_drop]
      omega
    · exact hbuf
  have hr1 : s1.reads = 0 := a1
  obtain ⟨f2, hf2⟩ := uart_to_host_spec E s1 h190 hr1 (by omega)
  refine ⟨max f1 f2, fun fuel hfuel => ?_⟩
  obtain ⟨s1', e1', a1', a2', a3'⟩ := hf1 fuel (le_trans (le_max_left _ _) hfuel)
  rw [hs0] at a1' a2' a3'
  have hs1 : s1' = s1 := by
    cases s1
    cases s1'
    simp only [St.mk.injEq]
    simp only at a1 a2 a3 a1' a2' a3'
    exact ⟨by rw [a2, a2'], by rw [a1, a1'], by rw [a3, a3']⟩
  subst hs1
  obtain ⟨s2, e2, b1, b2, b3⟩ := hf2 fuel (le_trans (le_max_right _ _) hfuel)
  refine ⟨line_change T K E s2, ?_, ?_, ?_, ?_⟩
  · unfold loop_body
    rw [if_neg hboot, if_pos hcfg, e1']
    simp only [e2]
  · rw [hpost]
    simp only
    omega
  · intro hr
    obtain ⟨c1, c2, c3⟩ := b2 hr
    rw [hpost]
    exact ⟨c1, c2, by simp only [c3, a3', List.append_assoc]⟩
  · intro hr
    rw [hpost, b3 hr]
    exact ⟨hr1, by simp only [a3', List.append_assoc]⟩

/-- C9. In every configured pass of the loop of `main` (boot-loader trigger inactive) in which
the USB side reports data ready, `USBUART_GetAll` delivers `n ≤ 64` bytes and every busy wait
entered ends, the bytes handed to the UART transmitter are exactly those `n` bytes in the same
order, in one burst, the only one of the pass; when `n = 0` no burst is handed to the UART
transmitter. The buffer keeps its 64 bytes. -/
theorem C9_host_bytes_forwarded (T : Target) (K : Build) (E : Env) (buf : List ℕ)
    (hboot : E.bldr_Read ≠ 0) (hcfg : E.GetConfiguration ≠ 0) (hdr : E.DataIsReady ≠ 0)
    (hbuf : buf.length = 64) (hall : E.GetAll.length ≤ 64)
    (h153 : E.DataIsReady ≠ 0 → E.GetAll ≠ [] → ∃ k, E.CDCIsReady_153 k ≠ 0)
    (h190 : E.CDCIsReady_169 ≠ 0 → rx_count E = 64 → ∃ k, E.CDCIsReady_190 k ≠ 0) :
    ∃ fuel0, ∀ fuel, fuel0 ≤ fuel → ∃ s, loop_body T K fuel E (St.init buf) = some s ∧
      s.buffer.length = 64 ∧ uart_tx s.out = E.GetAll ∧
      (1 ≤ E.GetAll.length →
        ∃ pre post, s.out = pre ++ Ev.UART_2_PutArray E.GetAll :: post ∧
          (∀ d, Ev.UART_2_PutArray d ∉ pre) ∧ (∀ d, Ev.UART_2_PutArray d ∉ post)) ∧
      (E.GetAll.length = 0 → ∀ d, Ev.UART_2_PutArray d ∉ s.out) := by
  obtain ⟨pre, post, hp, hq, fuel0, hfuel0⟩ :=
    loop_body_spec T K E buf hboot hcfg hbuf hall h153 h190
  refine ⟨fuel0, fun fuel hfuel => ?_⟩
  obtain ⟨s, e, hlen, p1, p2⟩ := hfuel0 fuel hfuel
  obtain ⟨-, hp2, -, hp4⟩ := no_data pre hp
  obtain ⟨-, hq2, -, hq4⟩ := no_data post hq
  have hout : ∃ dev, uart_tx dev = [] ∧ (∀ d, Ev.UART_2_PutArray d ∉ dev) ∧
      s.out = pre ++
        (if E.DataIsReady ≠ 0 ∧ E.GetAll ≠ [] then [Ev.UART_2_PutArray E.GetAll] else [])
        ++ dev ++ post := by
    by_cases hr : E.CDCIsReady_169 ≠ 0 ∧ 0 < rx_count E
    · obtain ⟨-, -, c3⟩ := p1 hr
      refine ⟨_, ?_, ?_, c3⟩
      · split_ifs <;> rfl
      · intro d hm
        split_ifs at hm <;> simp at hm
    · exact ⟨[], rfl, fun d hm => by simp at hm, by rw [(p2 hr).2, List.append_nil]⟩
  obtain ⟨dev, q1, q2, q3⟩ := hout
  have htx : uart_tx s.out = E.GetAll := by
    rw [q3]
    simp only [uart_tx_append, hp2, q1, hq2, List.nil_append, List.append_nil]
    by_cases hn : E.GetAll = []
    · simp [hn, uart_tx]
    · simp [hdr, hn, uart_tx]
  refine ⟨s, e, hlen, htx, ?_, ?_⟩
  · intro h1
    have hn : E.GetAll ≠ [] := fun h => by simp [h] at h1
    refine ⟨pre, dev ++ post, ?_, hp4, ?_⟩
    · rw [q3]
      simp [hdr, hn]
    · intro d hm
      rcases List.mem_append.mp hm with h | h
      · exact q2 d h
      · exact hq4 d h
  · intro h0 d hm
    have hn : E.GetAll = [] := List.length_eq_zero.mp h0
    rw [q3] at hm
    simp only [hn, ne_eq, not_true_eq_false, and_false, if_false, List.append_nil] at hm
    rcases List.mem_append.mp hm with h | h
    · rcases List.mem_append.mp h with h | h
      · exact hp4 d h
      · exact q2 d h
    · exact hq4 d h

/-- C10. In every configured pass of the loop of `main` (boot-loader trigger inactive) in which
every busy wait entered ends, for every pending receive count `p` below `2 ^ 16`: when the IN
endpoint is ready and `p > 0`, exactly `min p 64` bytes are pulled from the UART receiver, they
occupy `buffer[0 .. min p 64 - 1]` in arrival order and are sent to the host as one packet of that
length; otherwise no byte is pulled and nothing is sent to the host. The buffer keeps its 64
bytes. -/
theorem C10_rx_pull (T : Target) (K : Build) (E : Env) (buf : List ℕ)
    (hboot : E.bldr_Read ≠ 0) (hcfg : E.GetConfiguration ≠ 0)
    (hbuf : buf.length = 64) (hall : E.GetAll.length ≤ 64) (hp : E.GetRxBufferSize < 2 ^ 16)
    (h153 : E.DataIsReady ≠ 0 → E.GetAll ≠ [] → ∃ k, E.CDCIsReady_153 k ≠ 0)
    (h190 : E.CDCIsReady_169 ≠ 0 → rx_count E = 64 → ∃ k, E.CDCIsReady_190 k ≠ 0) :
    ∃ fuel0, ∀ fuel, fuel0 ≤ fuel → ∃ s, loop_body T K fuel E (St.init buf) = some s ∧
      s.buffer.length = 64 ∧
      (E.CDCIsReady_169 ≠ 0 ∧ 0 < E.GetRxBufferSize →
        s.reads = min E.GetRxBufferSize 64 ∧
        s.buffer.take (min E.GetRxBufferSize 64) =
          (List.range (min E.GetRxBufferSize 64)).map (fun i => E.GetByte i % 256) ∧
        usb_packets s.out = (List.range (min E.GetRxBufferSize 64)).map (fun i => E.GetByte i % 256)
          :: (if min E.GetRxBufferSize 64 = 64 then [[]] else [])) ∧
      (¬ (E.CDCIsReady_169 ≠ 0 ∧ 0 < E.GetRxBufferSize) →
        s.reads = 0 ∧ usb_packets s.out = []) := by
  obtain ⟨pre, post, hpd, hqd, fuel0, hfuel0⟩ :=
    loop_body_spec T K E buf hboot hcfg hbuf hall h153 h190
  refine ⟨fuel0, fun fuel hfuel => ?_⟩
  obtain ⟨s, e, hlen, p1, p2⟩ := hfuel0 fuel hfuel
  obtain ⟨hp1, -, -, -⟩ := no_data pre hpd
  obtain ⟨hq1, -, -, -⟩ := no_data post hqd
  have hc : rx_count E = min E.GetRxBufferSize 64 := by
    unfold rx_count tsk_usb_BUFFER_LEN
    rw [Nat.mod_eq_of_lt hp]
    split_ifs <;> omega
  have hhost : usb_packets
      (if E.DataIsReady ≠ 0 ∧ E.GetAll ≠ [] then [Ev.UART_2_PutArray E.GetAll] else []) = [] := by
    split_ifs <;> rfl
  refine ⟨s, e, hlen, ?_, ?_⟩
  · rintro ⟨hr, hpos⟩
    have hpos' : 0 < rx_count E := by rw [hc]; omega
    obtain ⟨c1, c2, c3⟩ := p1 ⟨hr, hpos'⟩
    rw [hc] at c1 c2 c3
    refine ⟨c1, c2, ?_⟩
    rw [c3]
    simp only [usb_packets_append, hp1, hhost, hq1, List.nil_append, List.append_nil]
    split_ifs <;> simp [usb_packets]
  · intro hr
    have hr' : ¬ (E.CDCIsReady_169 ≠ 0 ∧ 0 < rx_count E) := by
      rw [hc]
      intro hh
      exact hr ⟨hh.1, by omega⟩
    obtain ⟨c1, c2⟩ := p2 hr'
    exact ⟨c1, by rw [c2]; simp only [usb_packets_append, hp1, hhost, hq1, List.append_nil]⟩

/-- C9, on the example pass (the host has sent 10 bytes). -/
theorem C9_host_bytes_forwarded_witness :
    (env_example.bldr_Read ≠ 0 ∧ env_example.GetConfiguration ≠ 0 ∧
      env_example.DataIsReady ≠ 0 ∧
      (List.replicate 64 0).length = 64 ∧ env_example.GetAll.length = 10 ∧
      env_example.CDCIsReady_153 2 ≠ 0 ∧ env_example.CDCIsReady_190 1 ≠ 0) ∧
    ∃ fuel0, ∀ fuel, fuel0 ≤ fuel → ∃ s, loop_body cortexM3 build_example fuel env_example (St.init (List.replicate 64 0)) = some s ∧
      s.buffer.length = 64 ∧ uart_tx s.out = env_example.GetAll ∧
      (1 ≤ env_example.GetAll.length →
        ∃ pre post, s.out = pre ++ Ev.UART_2_PutArray env_example.GetAll :: post ∧
          (∀ d, Ev.UART_2_PutArray d ∉ pre) ∧ (∀ d, Ev.UART_2_PutArray d ∉ post)) ∧
      (env_example.GetAll.length = 0 → ∀ d, Ev.UART_2_PutArray d ∉ s.out) :=
  ⟨by decide, C9_host_bytes_forwarded cortexM3 build_example env_example (List.replicate 64 0)
    (by decide) (by decide) (by decide) (by decide) (by decide) (fun _ _ => ⟨2, by decide⟩)
    (fun _ _ => ⟨1, by decide⟩)⟩

/-- C10, on the example pass (64 bytes pending in the UART receiver, IN endpoint ready). -/
theorem C10_rx_pull_witness :
    (env_example.bldr_Read ≠ 0 ∧ env_example.GetConfiguration ≠ 0 ∧
      (List.replicate 64 0).length = 64 ∧
      env_example.GetAll.length ≤ 64 ∧ env_example.GetRxBufferSize < 2 ^ 16 ∧
      env_example.CDCIsReady_153 2 ≠ 0 ∧ env_example.CDCIsReady_190 1 ≠ 0 ∧
      env_example.CDCIsReady_169 ≠ 0 ∧ 0 < env_example.GetRxBufferSize) ∧
    ∃ fuel0, ∀ fuel, fuel0 ≤ fuel → ∃ s, loop_body cortexM3 build_example fuel env_example (St.init (List.replicate 64 0)) = some s ∧
      s.buffer.length = 64 ∧
      (env_example.CDCIsReady_169 ≠ 0 ∧ 0 < env_example.GetRxBufferSize →
        s.reads = min env_example.GetRxBufferSize 64 ∧
        s.buffer.take (min env_example.GetRxBufferSize 64) =
          (List.range (min env_example.GetRxBufferSize 64)).map (fun i => env_example.GetByte i % 256) ∧
        usb_packets s.out = (List.range (min env_example.GetRxBufferSize 64)).map (fun i => env_example.GetByte i % 256)
          :: (if min env_example.GetRxBufferSize 64 = 64 then [[]] else [])) ∧
      (¬ (env_example.CDCIsReady_169 ≠ 0 ∧ 0 < env_example.GetRxBufferSize) →
        s.reads = 0 ∧ usb_packets s.out = []) :=
  ⟨by decide, C10_rx_pull cortexM3 build_example env_example (List.replicate 64 0)
    (by decide) (by decide) (by decide) (by decide) (by decide) (fun _ _ => ⟨2, by decide⟩)
    (fun _ _ => ⟨1, by decide⟩)⟩

end UD3
